import Mathlib

/-!
Verification of the dependency-string normalization and aggregation engine of
the comfyui-dependency-tooling repository.

Python strings are modelled as `List Char` (`PyStr`); every Python string
operation used by the source (`strip`, `lower`, `startswith`, `split`,
`replace`, substring test, `re.split` on a character class) is given an
explicit executable Lean definition with the same semantics on ASCII data.
The functions under test (`parse_dependency_string`,
`normalize_repository_url` from src/utils.py and `compile_dependencies`,
`calculate_node_ranks`, `analyze_specific_dependency`,
`analyze_wildcard_dependencies` from analysis.py) are translated line by
line from the source.
-/

namespace ComfyDeps

/-- Python strings, modelled as explicit character lists. -/
abbrev PyStr := List Char

/-- Conversion from a Lean string literal to the character-list model. -/
def pyOf (s : String) : PyStr := s.toList

/-- Python `str.isspace` on the ASCII whitespace characters recognised by
`str.strip()` (space, tab, newline, carriage return, vertical tab, form feed). -/
def pyIsSpace (c : Char) : Bool :=
  c == ' ' || c == '\t' || c == '\n' || c == '\r' || c == Char.ofNat 11 || c == Char.ofNat 12

/-- Python `str.lstrip()`. -/
def pyLStrip (s : PyStr) : PyStr := s.dropWhile pyIsSpace

/-- Python `str.rstrip()`. -/
def pyRStrip (s : PyStr) : PyStr := (s.reverse.dropWhile pyIsSpace).reverse

/-- Python `str.strip()`. -/
def pyStrip (s : PyStr) : PyStr := pyRStrip (pyLStrip s)

/-- Python `str.lower()` (ASCII case folding, which is what the data uses). -/
def pyLower (s : PyStr) : PyStr := s.map Char.toLower

/-- Substring test: Python's `pat in s`. -/
def containsSub (pat : PyStr) : PyStr → Bool
  | [] => pat.isEmpty
  | c :: t => pat.isPrefixOf (c :: t) || containsSub pat t

/-- Python `s.split(pat)[0]`: the part of `s` before the first occurrence of
`pat` (the whole of `s` when `pat` does not occur). -/
def takeBefore (pat : PyStr) : PyStr → PyStr
  | [] => []
  | c :: t => if pat.isPrefixOf (c :: t) then [] else c :: takeBefore pat t

/-- Worker for `pyRemoveAll`: when the skip counter is positive we are inside
an already-matched occurrence and drop characters; at zero we test for a match
at the current position (Python `str.replace` scans left to right and removes
non-overlapping occurrences). -/
def pyRemoveAllAux (pat : PyStr) : Nat → PyStr → PyStr
  | _, [] => []
  | Nat.succ k, _ :: t => pyRemoveAllAux pat k t
  | 0, c :: t =>
    if pat ≠ [] && pat.isPrefixOf (c :: t) then pyRemoveAllAux pat (pat.length - 1) t
    else c :: pyRemoveAllAux pat 0 t

/-- Python `s.replace(pat, '')`. -/
def pyRemoveAll (pat s : PyStr) : PyStr := pyRemoveAllAux pat 0 s

/-- Python `s.strip('/')`. -/
def stripSlashes (s : PyStr) : PyStr :=
  ((s.dropWhile (fun c => c == '/')).reverse.dropWhile (fun c => c == '/')).reverse

/-- The version-operator characters of the regex `[<>=!~]` in
`parse_dependency_string` and `analyze_specific_dependency`. -/
def specChar (c : Char) : Bool :=
  c == '<' || c == '>' || c == '=' || c == '!' || c == '~'

/-- Result record of `parse_dependency_string` (src/utils.py). -/
structure ParseResult where
  is_comment : Bool
  is_pip_command : Bool
  is_git_dep : Bool
  git_dep_type : Option PyStr
  base_name : Option PyStr
  cleaned_str : Option PyStr
  original_str : PyStr
  skip : Bool

deriving instance DecidableEq for ParseResult

/-- Inline-comment stripping step of `parse_dependency_string`:
`cleaned = dep_str.split('#')[0].strip() if '#' in dep_str else dep_str`
(applied to the already-stripped line). -/
def cleanedOf (s : PyStr) : PyStr :=
  if s.contains '#' then pyStrip (s.takeWhile (fun c => !(c == '#'))) else s

/-- Final classification chain of `parse_dependency_string` on the non-empty
cleaned string (git+ prefix / ` @ git+` / ` @ ` / ordinary). -/
def classifyCleaned (dep_str cleaned : PyStr) : ParseResult :=
  if (pyOf "git+").isPrefixOf cleaned then
    { is_comment := false, is_pip_command := false, is_git_dep := true,
      git_dep_type := some (pyOf "git+ prefix"), base_name := some cleaned,
      cleaned_str := some cleaned, original_str := dep_str, skip := false }
  else if containsSub (pyOf " @ git+") cleaned then
    { is_comment := false, is_pip_command := false, is_git_dep := true,
      git_dep_type := some (pyOf "@ git+ style"),
      base_name := some (pyLower (pyStrip (takeBefore (pyOf " @ ") cleaned))),
      cleaned_str := some cleaned, original_str := dep_str, skip := false }
  else if containsSub (pyOf " @ ") cleaned then
    { is_comment := false, is_pip_command := false, is_git_dep := true,
      git_dep_type := some (pyOf "@ style"),
      base_name := some (pyLower (pyStrip (takeBefore (pyOf " @ ") cleaned))),
      cleaned_str := some cleaned, original_str := dep_str, skip := false }
  else
    { is_comment := false, is_pip_command := false, is_git_dep := false,
      git_dep_type := none,
      base_name := some (pyStrip ((pyLower cleaned).takeWhile (fun c => !(specChar c)))),
      cleaned_str := some cleaned, original_str := dep_str, skip := false }

/-- `parse_dependency_string` from src/utils.py, translated branch by branch. -/
def parse_dependency_string (dep_str : PyStr) : ParseResult :=
  let s := pyStrip dep_str
  if (pyOf "#").isPrefixOf s then
    { is_comment := true, is_pip_command := false, is_git_dep := false,
      git_dep_type := none, base_name := none, cleaned_str := none,
      original_str := dep_str, skip := true }
  else if (pyOf "--").isPrefixOf s then
    { is_comment := false, is_pip_command := true, is_git_dep := false,
      git_dep_type := none, base_name := none, cleaned_str := some s,
      original_str := dep_str, skip := false }
  else
    let cleaned := cleanedOf s
    if cleaned.isEmpty then
      { is_comment := false, is_pip_command := false, is_git_dep := false,
        git_dep_type := none, base_name := none, cleaned_str := none,
        original_str := dep_str, skip := true }
    else classifyCleaned dep_str cleaned

/-- Python applies `str()` to the argument before parsing, and `str(None)`
is the four-character string `"None"`; this extends the classifier to the
optional `cleaned_str` field exactly as the Python code would behave when
handed that field's value. -/
def parse_dependency_opt : Option PyStr → ParseResult
  | some s => parse_dependency_string s
  | none => parse_dependency_string (pyOf "None")

/-- Base-name extraction as worded by claim C1 (refinement spec, written from
the claim, to be compared against `parse_dependency_string`): `git+` lines
keep the whole cleaned text verbatim; lines containing ` @ ` take the piece
before it, trimmed and lowercased; otherwise the lowercased cleaned text is
truncated at the first of `<`, `>`, `=`, `!`, `~` and trimmed. -/
def specBaseName (cleaned : PyStr) : PyStr :=
  if (pyOf "git+").isPrefixOf cleaned then cleaned
  else if containsSub (pyOf " @ ") cleaned then
    pyLower (pyStrip (takeBefore (pyOf " @ ") cleaned))
  else pyStrip ((pyLower cleaned).takeWhile (fun c => !(specChar c)))

/-- `normalize_repository_url` from src/utils.py: lowercase, strip `/` from
both ends, then `str.replace` (all occurrences) of the three github prefixes
and of `.git`, in the source's order. -/
def normalize_repository_url (repo_url : PyStr) : PyStr :=
  if repo_url.isEmpty || repo_url == pyOf "N/A" then []
  else
    pyRemoveAll (pyOf ".git")
      (pyRemoveAll (pyOf "github.com/")
        (pyRemoveAll (pyOf "http://github.com/")
          (pyRemoveAll (pyOf "https://github.com/")
            (stripSlashes (pyLower repo_url)))))

/-- The `latest_version` sub-record of a node: a creation timestamp and the
raw dependency-line list, each possibly absent (Python dict keys). -/
structure LatestVersion where
  createdAt : Option PyStr
  dependencies : Option (List PyStr)

deriving instance DecidableEq for LatestVersion

/-- A node record as consumed by analysis.py: the fields the analysis reads,
each optional because the Python code accesses them with `in` / `.get`. -/
structure PyNode where
  name : Option PyStr
  repository : Option PyStr
  downloads : Option Int
  github_stars : Option Int
  latest_version : Option LatestVersion

deriving instance DecidableEq for PyNode

/-- The dependency lines a node contributes to the query loops of
`analyze_specific_dependency` / `analyze_wildcard_dependencies`: both guard
with `'latest_version' in node_data and node_data['latest_version']` and
`'dependencies' in latest_version and latest_version['dependencies']`, and a
missing or empty list yields no loop iterations. -/
def depsOfNode (nd : PyNode) : List PyStr :=
  match nd.latest_version with
  | some lv => lv.dependencies.getD []
  | none => []

/-- `node_data.get('name', 'N/A')`. -/
def nodeName (nd : PyNode) : PyStr := nd.name.getD (pyOf "N/A")

/-- `defaultdict(int)` increment, on an association list: bump the count of
`k`, inserting it with count 1 when absent. -/
def bump (k : PyStr) : List (PyStr × Nat) → List (PyStr × Nat)
  | [] => [(k, 1)]
  | (k', n) :: t => if k' = k then (k', n + 1) :: t else (k', n) :: bump k t

/-- `defaultdict(set)` insertion: `dependency_versions[k].add(v)`. -/
def addVersion (k v : PyStr) : List (PyStr × List PyStr) → List (PyStr × List PyStr)
  | [] => [(k, [v])]
  | (k', vs) :: t =>
    if k' = k then (k', if vs.contains v then vs else vs ++ [v]) :: t
    else (k', vs) :: addVersion k v t

/-- Python `list(set(l))`, modelled as first-occurrence deduplication (the
set's iteration order is arbitrary; only membership matters to the claims). -/
def setList (l : List PyStr) : List PyStr :=
  l.foldl (fun acc x => if acc.contains x then acc else acc ++ [x]) []

/-- Stable insertion step for descending sort of count pairs
(`sorted(..., key=lambda x: x[1], reverse=True)` is a stable descending sort). -/
def insertPairDesc (x : PyStr × Nat) : List (PyStr × Nat) → List (PyStr × Nat)
  | [] => [x]
  | y :: t => if y.2 ≤ x.2 then x :: y :: t else y :: insertPairDesc x t

/-- Stable descending sort of count pairs by count. -/
def sortPairsDesc (l : List (PyStr × Nat)) : List (PyStr × Nat) :=
  l.foldr insertPairDesc []

/-- Per-node entry of `nodes_with_deps` in `compile_dependencies`. -/
structure NodeDeps where
  id : String
  name : PyStr
  dependencies : List PyStr

deriving instance DecidableEq for NodeDeps

/-- Per-node entry of `nodes_with_pip_commands` in `compile_dependencies`. -/
structure NodePip where
  id : String
  name : PyStr
  pip_commands : List PyStr
  active_deps : List PyStr

deriving instance DecidableEq for NodePip

/-- Per-node entry of `nodes_with_commented_deps` in `compile_dependencies`. -/
structure NodeCommented where
  id : String
  name : PyStr
  commented_deps : List PyStr
  active_deps : List PyStr

deriving instance DecidableEq for NodeCommented

/-- Per-node entry of `nodes_with_git_deps` in `compile_dependencies`. -/
structure NodeGit where
  id : String
  name : PyStr
  git_deps : List PyStr
  active_deps : List PyStr

deriving instance DecidableEq for NodeGit

/-- The collection-level accumulators of `compile_dependencies`. -/
structure CompileAcc where
  all_dependencies : List PyStr
  base_dependency_count : List (PyStr × Nat)
  dependency_versions : List (PyStr × List PyStr)
  nodes_with_deps : List NodeDeps
  nodes_without_deps : List String
  nodes_with_commented : List NodeCommented
  nodes_with_pip : List NodePip
  nodes_with_git : List NodeGit
  commented_dependencies : List PyStr
  pip_commands : List PyStr
  pip_command_count : List (PyStr × Nat)
  git_dependencies : List PyStr
  git_dependency_count : List (PyStr × Nat)

deriving instance DecidableEq for CompileAcc

/-- Empty accumulator state at the top of `compile_dependencies`. -/
def emptyCompileAcc : CompileAcc :=
  { all_dependencies := [], base_dependency_count := [], dependency_versions := [],
    nodes_with_deps := [], nodes_without_deps := [], nodes_with_commented := [],
    nodes_with_pip := [], nodes_with_git := [], commented_dependencies := [],
    pip_commands := [], pip_command_count := [], git_dependencies := [],
    git_dependency_count := [] }

/-- State of the inner `for dep in deps` loop of `compile_dependencies`:
the four per-node lists plus the threaded collection accumulators. -/
structure LineAcc where
  active : List PyStr
  commented : List PyStr
  pips : List PyStr
  gits : List PyStr
  g : CompileAcc

deriving instance DecidableEq for LineAcc

/-- One iteration of the inner dependency loop of `compile_dependencies`:
comments are recorded and skipped; pip commands are recorded and skipped;
empty lines are skipped; git lines are additionally recorded as git deps; all
remaining lines are appended to the active list, counted under their base
name, and their cleaned string added to the per-base version set. -/
def processLine (la : LineAcc) (dep : PyStr) : LineAcc :=
  let p := parse_dependency_string dep
  if p.is_comment then
    { la with commented := la.commented ++ [dep],
              g := { la.g with
                     commented_dependencies := la.g.commented_dependencies ++ [dep] } }
  else if p.is_pip_command then
    let cs := p.cleaned_str.getD []
    { la with pips := la.pips ++ [cs],
              g := { la.g with
                     pip_commands := la.g.pip_commands ++ [cs],
                     pip_command_count := bump cs la.g.pip_command_count } }
  else if p.skip then la
  else
    let cs := p.cleaned_str.getD []
    let bn := p.base_name.getD []
    if p.is_git_dep then
      { la with gits := la.gits ++ [cs], active := la.active ++ [cs],
                g := { la.g with
                       git_dependencies := la.g.git_dependencies ++ [cs],
                       git_dependency_count :=
                         bump (p.git_dep_type.getD []) la.g.git_dependency_count,
                       all_dependencies := la.g.all_dependencies ++ [cs],
                       base_dependency_count := bump bn la.g.base_dependency_count,
                       dependency_versions := addVersion bn cs la.g.dependency_versions } }
    else
      { la with active := la.active ++ [cs],
                g := { la.g with
                       all_dependencies := la.g.all_dependencies ++ [cs],
                       base_dependency_count := bump bn la.g.base_dependency_count,
                       dependency_versions := addVersion bn cs la.g.dependency_versions } }

/-- The `if node_pip_commands:` block after the inner loop of
`compile_dependencies`. -/
def recordPip (en : String × PyNode) (la : LineAcc) (acc : CompileAcc) : CompileAcc :=
  if la.pips.isEmpty then acc
  else { acc with nodes_with_pip :=
           acc.nodes_with_pip ++ [⟨en.1, nodeName en.2, la.pips, la.active⟩] }

/-- The `if commented_deps:` block after the inner loop of
`compile_dependencies`. -/
def recordCommented (en : String × PyNode) (la : LineAcc) (acc : CompileAcc) : CompileAcc :=
  if la.commented.isEmpty then acc
  else { acc with nodes_with_commented :=
           acc.nodes_with_commented ++ [⟨en.1, nodeName en.2, la.commented, la.active⟩] }

/-- The `if node_git_deps:` block after the inner loop of
`compile_dependencies`. -/
def recordGit (en : String × PyNode) (la : LineAcc) (acc : CompileAcc) : CompileAcc :=
  if la.gits.isEmpty then acc
  else { acc with nodes_with_git :=
           acc.nodes_with_git ++ [⟨en.1, nodeName en.2, la.gits, la.active⟩] }

/-- The final `if active_deps: ... else: ...` partition step of
`compile_dependencies`. -/
def recordPartition (en : String × PyNode) (la : LineAcc) (acc : CompileAcc) : CompileAcc :=
  if la.active.isEmpty then
    { acc with nodes_without_deps := acc.nodes_without_deps ++ [en.1] }
  else
    { acc with nodes_with_deps :=
        acc.nodes_with_deps ++ [⟨en.1, nodeName en.2, la.active⟩] }

/-- One iteration of the outer node loop of `compile_dependencies`: nodes
with no usable `latest_version.dependencies` list go straight to the
"without dependencies" partition; otherwise the inner loop runs and the node
is appended to the per-category node lists, ending in exactly one of
`nodes_with_deps` (non-empty active list) or `nodes_without_deps`. -/
def processNode (acc : CompileAcc) (en : String × PyNode) : CompileAcc :=
  match en.2.latest_version with
  | none => { acc with nodes_without_deps := acc.nodes_without_deps ++ [en.1] }
  | some lv =>
    match lv.dependencies with
    | none => { acc with nodes_without_deps := acc.nodes_without_deps ++ [en.1] }
    | some deps =>
      if deps.isEmpty then
        { acc with nodes_without_deps := acc.nodes_without_deps ++ [en.1] }
      else
        let la := deps.foldl processLine
          { active := [], commented := [], pips := [], gits := [], g := acc }
        recordPartition en la (recordGit en la (recordCommented en la (recordPip en la la.g)))

/-- The result record returned by `compile_dependencies`. -/
structure CompileResult where
  all_dependencies : List PyStr
  unique_dependencies : List PyStr
  dependency_count : List (PyStr × Nat)
  sorted_by_frequency : List (PyStr × Nat)
  dependency_versions : List (PyStr × List PyStr)
  unique_base_dependencies : List PyStr
  nodes_with_dependencies : List NodeDeps
  nodes_without_dependencies : List String
  nodes_with_commented_dependencies : List NodeCommented
  nodes_with_pip_commands : List NodePip
  nodes_with_git_dependencies : List NodeGit
  commented_dependencies : List PyStr
  unique_commented_dependencies : List PyStr
  pip_commands : List PyStr
  unique_pip_commands : List PyStr
  pip_command_count : List (PyStr × Nat)
  sorted_pip_commands : List (PyStr × Nat)
  git_dependencies : List PyStr
  unique_git_dependencies : List PyStr
  git_dependency_count : List (PyStr × Nat)
  sorted_git_dependency_types : List (PyStr × Nat)
  total_dependencies : Nat
  unique_count : Nat
  unique_raw_count : Nat
  nodes_with_deps_count : Nat
  nodes_without_deps_count : Nat
  nodes_with_commented_count : Nat
  nodes_with_pip_commands_count : Nat
  nodes_with_git_deps_count : Nat

deriving instance DecidableEq for CompileResult

/-- `compile_dependencies` from analysis.py (the dependency aggregator). -/
def compile_dependencies (nodes : List (String × PyNode)) : CompileResult :=
  let acc := nodes.foldl processNode emptyCompileAcc
  { all_dependencies := acc.all_dependencies,
    unique_dependencies := setList acc.all_dependencies,
    dependency_count := acc.base_dependency_count,
    sorted_by_frequency := sortPairsDesc acc.base_dependency_count,
    dependency_versions := acc.dependency_versions,
    unique_base_dependencies := acc.base_dependency_count.map Prod.fst,
    nodes_with_dependencies := acc.nodes_with_deps,
    nodes_without_dependencies := acc.nodes_without_deps,
    nodes_with_commented_dependencies := acc.nodes_with_commented,
    nodes_with_pip_commands := acc.nodes_with_pip,
    nodes_with_git_dependencies := acc.nodes_with_git,
    commented_dependencies := acc.commented_dependencies,
    unique_commented_dependencies := setList acc.commented_dependencies,
    pip_commands := acc.pip_commands,
    unique_pip_commands := acc.pip_command_count.map Prod.fst,
    pip_command_count := acc.pip_command_count,
    sorted_pip_commands := sortPairsDesc acc.pip_command_count,
    git_dependencies := acc.git_dependencies,
    unique_git_dependencies := setList acc.git_dependencies,
    git_dependency_count := acc.git_dependency_count,
    sorted_git_dependency_types := sortPairsDesc acc.git_dependency_count,
    total_dependencies := acc.all_dependencies.length,
    unique_count := (acc.base_dependency_count.map Prod.fst).length,
    unique_raw_count := (setList acc.all_dependencies).length,
    nodes_with_deps_count := acc.nodes_with_deps.length,
    nodes_without_deps_count := acc.nodes_without_deps.length,
    nodes_with_commented_count := acc.nodes_with_commented.length,
    nodes_with_pip_commands_count := acc.nodes_with_pip.length,
    nodes_with_git_deps_count := acc.nodes_with_git.length }

/-- Stable insertion step for `sorted(nodes_dict.items(), key=downloads,
reverse=True)`: a node is placed before the first node with a download count
less than or equal to its own, which reproduces Python's stable descending
sort under the right fold below. -/
def insertNodeDesc (x : String × PyNode) :
    List (String × PyNode) → List (String × PyNode)
  | [] => [x]
  | y :: t =>
    if y.2.downloads.getD 0 ≤ x.2.downloads.getD 0 then x :: y :: t
    else y :: insertNodeDesc x t

/-- Stable descending sort of nodes by `node.get('downloads', 0)`. -/
def sortNodesByDownloadsDesc (l : List (String × PyNode)) : List (String × PyNode) :=
  l.foldr insertNodeDesc []

/-- 1-based rank assignment along the sorted node list. -/
def ranksFrom : Nat → List (String × PyNode) → List (String × Nat)
  | _, [] => []
  | r, (id, _) :: t => (id, r) :: ranksFrom (r + 1) t

/-- `calculate_node_ranks` from analysis.py. -/
def calculate_node_ranks (nodes : List (String × PyNode)) : List (String × Nat) :=
  ranksFrom 1 (sortNodesByDownloadsDesc nodes)

/-- `rank_map.get(node_id, 0)`. -/
def lookupRank (m : List (String × Nat)) (id : String) : Nat :=
  ((m.find? (fun p => p.1 == id)).map Prod.snd).getD 0

/-- `latest_version_date` extraction in `analyze_specific_dependency`:
the first 10 characters of `createdAt`, `'N/A'` when absent or empty. -/
def latestVersionDate (nd : PyNode) : PyStr :=
  match nd.latest_version with
  | some lv =>
    match lv.createdAt with
    | some ds => if ds.isEmpty then pyOf "N/A" else ds.take 10
    | none => pyOf "N/A"
  | none => pyOf "N/A"

/-- Model of `re.search(r'[<>=!~]+(.+)', dep_spec) is not None`: the regex
finds a match exactly when some version-operator character is immediately
followed by a character other than a newline. -/
def searchVer : PyStr → Bool
  | c1 :: c2 :: rest => (specChar c1 && !(c2 == '\n')) || searchVer (c2 :: rest)
  | _ => false

/-- A match entry of `nodes_using` in `analyze_specific_dependency`. -/
structure UsingEntry where
  node_id : String
  node_name : PyStr
  repository : PyStr
  dependency_spec : PyStr
  stars : Int
  downloads : Int
  rank : Nat
  latest_version_date : PyStr

deriving instance DecidableEq for UsingEntry

/-- A commented-out-evidence entry of `nodes_with_commented` in
`analyze_specific_dependency`. -/
structure CommentedEntry where
  node_id : String
  node_name : PyStr
  commented_spec : PyStr

deriving instance DecidableEq for CommentedEntry

/-- Accumulators of the `analyze_specific_dependency` loops. -/
structure SDAcc where
  nodes_using : List UsingEntry
  all_versions : List PyStr
  version_count : List (PyStr × Nat)
  nodes_with_commented : List CommentedEntry

deriving instance DecidableEq for SDAcc

/-- One iteration of the dependency loop of `analyze_specific_dependency`:
comment lines are re-parsed with their first original character removed and,
on a base-name match with the query, recorded as commented-out evidence;
pip commands and empty lines are skipped; active lines whose base name equals
the lowercased query are appended to `nodes_using` together with version
bookkeeping. -/
def processSDLine (rm : List (String × Nat)) (ql : PyStr) (node_id : String)
    (nd : PyNode) (acc : SDAcc) (dep : PyStr) : SDAcc :=
  let p := parse_dependency_string dep
  if p.is_comment then
    let commented_content := pyStrip (dep.drop 1)
    let pc := parse_dependency_string commented_content
    if pc.base_name == some ql then
      { acc with nodes_with_commented :=
          acc.nodes_with_commented ++ [⟨node_id, nodeName nd, dep⟩] }
    else acc
  else if p.skip || p.is_pip_command then acc
  else
    if p.base_name == some ql then
      let dep_spec := p.cleaned_str.getD []
      let bn := p.base_name.getD []
      let entry : UsingEntry :=
        { node_id := node_id, node_name := nodeName nd,
          repository := nd.repository.getD (pyOf "N/A"),
          dependency_spec := dep_spec,
          stars := nd.github_stars.getD 0,
          downloads := nd.downloads.getD 0,
          rank := lookupRank rm node_id,
          latest_version_date := latestVersionDate nd }
      let acc := { acc with nodes_using := acc.nodes_using ++ [entry] }
      if searchVer dep_spec then
        let version_spec := pyStrip (dep_spec.drop bn.length)
        { acc with all_versions := acc.all_versions ++ [version_spec],
                   version_count := bump version_spec acc.version_count }
      else
        { acc with all_versions := acc.all_versions ++ [pyOf "*"],
                   version_count := bump (pyOf "*") acc.version_count }
    else acc

/-- The report returned by `analyze_specific_dependency`. -/
structure SpecificResult where
  dependency_name : PyStr
  nodes_using : List UsingEntry
  total_nodes : Nat
  all_versions : List PyStr
  unique_versions : List PyStr
  version_count : List (PyStr × Nat)
  sorted_versions : List (PyStr × Nat)
  nodes_with_commented : List CommentedEntry
  commented_count : Nat

deriving instance DecidableEq for SpecificResult

/-- `analyze_specific_dependency` from analysis.py (the single-dependency
inspector). -/
def analyze_specific_dependency (nodes : List (String × PyNode)) (dep_name : PyStr) :
    SpecificResult :=
  let ql := pyLower dep_name
  let rm := calculate_node_ranks nodes
  let acc := nodes.foldl
    (fun acc en => (depsOfNode en.2).foldl (processSDLine rm ql en.1 en.2) acc)
    ⟨[], [], [], []⟩
  { dependency_name := dep_name,
    nodes_using := acc.nodes_using,
    total_nodes := acc.nodes_using.length,
    all_versions := acc.all_versions,
    unique_versions := setList acc.all_versions,
    version_count := acc.version_count,
    sorted_versions := sortPairsDesc acc.version_count,
    nodes_with_commented := acc.nodes_with_commented,
    commented_count := acc.nodes_with_commented.length }

/-- Splits the body of a glob character class at its closing `]`, returning
the body and the remaining pattern, or `none` when the class is unterminated. -/
def findClose : PyStr → Option (PyStr × PyStr)
  | [] => none
  | c :: t =>
    if c == ']' then some ([], t)
    else (findClose t).map (fun br => (c :: br.1, br.2))

/-- Parses a glob character class after its opening `[`: a leading `!` and a
literal `]` right after it (or after `[`) belong to the body, as in Python's
`fnmatch.translate`. -/
def parseClass (p : PyStr) : Option (PyStr × PyStr) :=
  match p with
  | '!' :: ']' :: rest2 => (findClose rest2).map (fun br => ('!' :: ']' :: br.1, br.2))
  | '!' :: rest => (findClose rest).map (fun br => ('!' :: br.1, br.2))
  | ']' :: rest => (findClose rest).map (fun br => (']' :: br.1, br.2))
  | _ => findClose p

/-- Membership of a character in the items of a class body (`a-b` ranges and
literal characters). -/
def classItems : PyStr → Char → Bool
  | [], _ => false
  | a :: '-' :: b :: rest, c =>
    (decide (a ≤ c) && decide (c ≤ b)) || classItems rest c
  | a :: rest, c => (a == c) || classItems rest c

/-- Character-class match, honouring a leading `!` negation. -/
def classMatch (body : PyStr) (c : Char) : Bool :=
  match body with
  | '!' :: items => !(classItems items c)
  | items => classItems items c

/-- Fuel-indexed glob matcher (`*`, `?`, `[...]`, literal characters),
modelling `fnmatch.fnmatch` on a POSIX system (no case normalisation);
an unterminated `[` matches itself literally, as in `fnmatch.translate`.
Every recursive call shrinks `p.length + s.length`, so the fuel used by
`fnmatchB` below is always sufficient. -/
def globMatchFuel : Nat → PyStr → PyStr → Bool
  | 0, _, _ => false
  | Nat.succ n, p, s =>
    match p with
    | [] => s.isEmpty
    | '*' :: p' =>
      globMatchFuel n p' s ||
        (match s with
         | [] => false
         | _ :: t => globMatchFuel n ('*' :: p') t)
    | '?' :: p' =>
      (match s with
       | [] => false
       | _ :: t => globMatchFuel n p' t)
    | '[' :: p' =>
      (match parseClass p' with
       | some br =>
         (match s with
          | [] => false
          | c :: t => classMatch br.1 c && globMatchFuel n br.2 t)
       | none =>
         (match s with
          | [] => false
          | c :: t => (c == '[') && globMatchFuel n p' t))
    | c :: p' =>
      (match s with
       | [] => false
       | c' :: t => (c == c') && globMatchFuel n p' t)

/-- `fnmatch.fnmatch(name, pattern)` (POSIX: `os.path.normcase` is the
identity, so no case folding happens beyond what the caller did). -/
def fnmatchB (nm pat : PyStr) : Bool :=
  globMatchFuel (pat.length + nm.length + 1) pat nm

/-- One iteration of the universe-collection loop of
`analyze_wildcard_dependencies`: skip lines and pip commands contribute
nothing, and a base name is added only when truthy (present and non-empty). -/
def wildInsertLine (acc : List PyStr) (dep : PyStr) : List PyStr :=
  let p := parse_dependency_string dep
  if p.skip || p.is_pip_command then acc
  else
    match p.base_name with
    | some b => if b.isEmpty then acc else (if acc.contains b then acc else acc ++ [b])
    | none => acc

/-- The `all_base_deps` universe of `analyze_wildcard_dependencies` (the
Python set, modelled as a first-occurrence-ordered duplicate-free list). -/
def collectAllBaseDeps (nodes : List (String × PyNode)) : List PyStr :=
  nodes.foldl (fun acc en => (depsOfNode en.2).foldl wildInsertLine acc) []

/-- `analyze_wildcard_dependencies` from analysis.py (the wildcard resolver):
every universe member matching the lowercased pattern is mapped to its
single-dependency report. -/
def analyze_wildcard_dependencies (nodes : List (String × PyNode)) (pattern : PyStr) :
    List (PyStr × SpecificResult) :=
  let pl := pyLower pattern
  ((collectAllBaseDeps nodes).filter (fun b => fnmatchB b pl)).map
    (fun b => (b, analyze_specific_dependency nodes b))

/-! Concrete entities used by witnesses and counterexamples. -/

/-- A node declaring one ordinary dependency. -/
def nodeTorch : PyNode :=
  ⟨some (pyOf "Torch node"), some (pyOf "github.com/a/a"), some 100, some 5,
    some ⟨some (pyOf "2024-01-02T03:04:05Z"), some [pyOf "torch==2.0"]⟩⟩

/-- A node declaring a torchvision and a numpy dependency. -/
def nodeVision : PyNode :=
  ⟨none, none, some 200, none,
    some ⟨none, some [pyOf "torchvision>=0.15", pyOf "numpy"]⟩⟩

/-- A node with no `latest_version` record at all. -/
def nodeBare : PyNode := ⟨none, none, none, none, none⟩

/-- A node whose dependency list is non-empty and consists of flag lines only. -/
def nodeFlagsOnly : PyNode :=
  ⟨some (pyOf "F"), none, none, none,
    some ⟨none, some [pyOf "--extra-index-url https://example.com"]⟩⟩

/-- A node whose only dependency line is a comment preceded by whitespace. -/
def nodeSpaceComment : PyNode :=
  ⟨none, none, none, none, some ⟨none, some [pyOf " #numpy"]⟩⟩

/-- A node declaring numpy both actively and, separately, commented out. -/
def nodeBoth : PyNode :=
  ⟨none, none, none, none, some ⟨none, some [pyOf "numpy", pyOf "#numpy"]⟩⟩

/-- A node whose only dependency line has an empty base name. -/
def nodeEmptyBase : PyNode :=
  ⟨none, none, none, none, some ⟨none, some [pyOf "==1.0"]⟩⟩

/-- Two-entity mapping with distinct keys. -/
def cexPair : List (String × PyNode) := [("a", nodeTorch), ("b", nodeBare)]

/-- Single-entity mapping whose entity has only flag lines. -/
def cexFlags : List (String × PyNode) := [("n1", nodeFlagsOnly)]

/-- Single-entity mapping whose comment line has leading whitespace. -/
def cexSpaceComment : List (String × PyNode) := [("n", nodeSpaceComment)]

/-- Single-entity mapping declaring numpy both actively and commented. -/
def cexBoth : List (String × PyNode) := [("n", nodeBoth)]

/-- Single-entity mapping with an active empty-base-name line. -/
def cexEmptyBase : List (String × PyNode) := [("n", nodeEmptyBase)]

/-- Two-entity mapping used by the wildcard witness. -/
def cexWild : List (String × PyNode) := [("e1", nodeTorch), ("e2", nodeVision)]

/-- The per-line match predicate of claims C2: a line counts when it is not a
comment, not skipped, not a pip command, and its classified base name equals
the lowercased query. -/
def matchPredB (ql : PyStr) (dep : PyStr) : Bool :=
  let p := parse_dependency_string dep
  !p.is_comment && !p.skip && !p.is_pip_command && (p.base_name == some ql)

/-- The per-line commented-evidence predicate of claim C6 as implemented: the
line is comment-tagged and re-parsing the original line with its first
character removed yields a base name equal to the lowercased query. -/
def commentPredB (ql : PyStr) (dep : PyStr) : Bool :=
  (parse_dependency_string dep).is_comment &&
    ((parse_dependency_string (pyStrip (dep.drop 1))).base_name == some ql)

/-- Total of the per-key counts of a count table. -/
def sumCounts (l : List (PyStr × Nat)) : Nat := (l.map Prod.snd).sum

/-! Basic lemmas about the Python string primitives. -/

/-- A boolean that is not true is false. -/
theorem bool_eq_false (b : Bool) (h : ¬b = true) : b = false := by
  cases b
  · rfl
  · exact absurd rfl h

/-- A boolean that is false is not true. -/
theorem bool_ne_true (b : Bool) (h : b = false) : ¬b = true := by
  intro h'
  rw [h] at h'
  cases h'

/-- `List.contains` agrees with membership (for lawful boolean equality). -/
theorem contains_mem {α : Type} [BEq α] [LawfulBEq α] (l : List α) (a : α) :
    l.contains a = true ↔ a ∈ l := by simp

/-- Negative form of `contains_mem`. -/
theorem contains_false_iff (l : PyStr) (a : Char) : l.contains a = false ↔ a ∉ l := by
  constructor
  · intro h hm
    have hc := (contains_mem l a).mpr hm
    rw [h] at hc
    cases hc
  · intro h
    exact bool_eq_false _ (fun hc => h ((contains_mem l a).mp hc))

/-- The head surviving `dropWhile` fails the predicate. -/
theorem dropWhile_head_false (p : Char → Bool) :
    ∀ (l : PyStr) (c : Char) (t : PyStr), List.dropWhile p l = c :: t → p c = false := by
  intro l
  induction l with
  | nil => intro c t h; simp [List.dropWhile] at h
  | cons a l ih =>
    intro c t h
    by_cases hp : p a = true
    · rw [List.dropWhile_cons_of_pos hp] at h
      exact ih c t h
    · rw [List.dropWhile_cons_of_neg hp] at h
      cases h
      exact bool_eq_false _ hp

/-- `dropWhile` is idempotent. -/
theorem dropWhile_idem (p : Char → Bool) (l : PyStr) :
    List.dropWhile p (List.dropWhile p l) = List.dropWhile p l := by
  cases h : List.dropWhile p l with
  | nil => simp
  | cons c t =>
    have hc := dropWhile_head_false p l c t h
    rw [List.dropWhile_cons_of_neg (by simp [hc])]

/-- Elements of `dropWhile` come from the list. -/
theorem mem_of_mem_dropWhile (p : Char → Bool) :
    ∀ (l : PyStr) (a : Char), a ∈ List.dropWhile p l → a ∈ l := by
  intro l
  induction l with
  | nil => intro a h; simpa using h
  | cons b l ih =>
    intro a h
    by_cases hp : p b = true
    · rw [List.dropWhile_cons_of_pos hp] at h
      exact List.mem_cons_of_mem b (ih a h)
    · rw [List.dropWhile_cons_of_neg hp] at h
      exact h

/-- A list is some prefix followed by its `dropWhile`. -/
theorem exists_append_dropWhile (p : Char → Bool) :
    ∀ l : PyStr, ∃ m, l = m ++ List.dropWhile p l := by
  intro l
  induction l with
  | nil => exact ⟨[], rfl⟩
  | cons a l ih =>
    by_cases hp : p a = true
    · obtain ⟨m, hm⟩ := ih
      exact ⟨a :: m, by rw [List.dropWhile_cons_of_pos hp]; simpa using hm⟩
    · refine ⟨[], ?_⟩
      rw [List.dropWhile_cons_of_neg hp]
      simp

/-- `pyRStrip` is a prefix of its argument. -/
theorem pyRStrip_exists_append (l : PyStr) : ∃ m, l = pyRStrip l ++ m := by
  obtain ⟨m, hm⟩ := exists_append_dropWhile pyIsSpace l.reverse
  refine ⟨m.reverse, ?_⟩
  have : l.reverse.reverse = (m ++ List.dropWhile pyIsSpace l.reverse).reverse := by rw [← hm]
  simpa [pyRStrip, List.reverse_append] using this

/-- The head of a stripped string is not whitespace. -/
theorem pyStrip_head_nonspace (s : PyStr) (c : Char) (t : PyStr)
    (h : pyStrip s = c :: t) : pyIsSpace c = false := by
  obtain ⟨m, hm⟩ := pyRStrip_exists_append (pyLStrip s)
  rw [show pyRStrip (pyLStrip s) = pyStrip s from rfl, h] at hm
  exact dropWhile_head_false pyIsSpace s c (t ++ m) (by simpa [pyLStrip] using hm)

/-- `lstrip` of a string with a non-space head is the string itself. -/
theorem pyLStrip_of_head_nonspace (c : Char) (t : PyStr) (h : pyIsSpace c = false) :
    pyLStrip (c :: t) = c :: t := by
  show List.dropWhile pyIsSpace (c :: t) = c :: t
  rw [List.dropWhile_cons_of_neg (bool_ne_true _ h)]

/-- `pyRStrip` is idempotent. -/
theorem pyRStrip_idem (l : PyStr) : pyRStrip (pyRStrip l) = pyRStrip l := by
  simp [pyRStrip, dropWhile_idem]

/-- `pyStrip` is idempotent. -/
theorem pyStrip_idem (s : PyStr) : pyStrip (pyStrip s) = pyStrip s := by
  cases h : pyStrip s with
  | nil => rfl
  | cons c t =>
    have hns := pyStrip_head_nonspace s c t h
    show pyRStrip (pyLStrip (c :: t)) = c :: t
    rw [pyLStrip_of_head_nonspace c t hns]
    have : pyRStrip (pyRStrip (pyLStrip s)) = pyRStrip (pyLStrip s) := pyRStrip_idem _
    rw [show pyRStrip (pyLStrip s) = pyStrip s from rfl, h] at this
    exact this.trans h.symm |>.trans h

/-- Members of `pyRStrip` come from the list. -/
theorem mem_of_mem_pyRStrip (l : PyStr) (a : Char) (h : a ∈ pyRStrip l) : a ∈ l := by
  rw [pyRStrip, List.mem_reverse] at h
  have := mem_of_mem_dropWhile pyIsSpace l.reverse a h
  simpa using this

/-- Members of `pyStrip` come from the string. -/
theorem mem_of_mem_pyStrip (s : PyStr) (a : Char) (h : a ∈ pyStrip s) : a ∈ s := by
  have h1 := mem_of_mem_pyRStrip (pyLStrip s) a h
  exact mem_of_mem_dropWhile pyIsSpace s a h1

/-- Bool prefix test in terms of an explicit декомposition. -/
theorem isPrefixOf_exists : ∀ (p s : PyStr), p.isPrefixOf s = true ↔ ∃ t, s = p ++ t := by
  intro p
  induction p with
  | nil => intro s; simp [List.isPrefixOf]
  | cons a p ih =>
    intro s
    cases s with
    | nil => simp [List.isPrefixOf]
    | cons b t =>
      simp only [List.isPrefixOf, Bool.and_eq_true, beq_iff_eq, List.cons_append,
        List.cons.injEq]
      constructor
      · rintro ⟨rfl, h⟩
        obtain ⟨u, hu⟩ := (ih t).mp h
        exact ⟨u, rfl, hu⟩
      · rintro ⟨u, rfl, hu⟩
        exact ⟨rfl, (ih t).mpr ⟨u, hu⟩⟩

/-- A prefix of `a` is a prefix of `a ++ k`. -/
theorem isPrefixOf_append_more (p a k : PyStr) (h : p.isPrefixOf a = true) :
    p.isPrefixOf (a ++ k) = true := by
  obtain ⟨t, rfl⟩ := (isPrefixOf_exists p a).mp h
  exact (isPrefixOf_exists p _).mpr ⟨t ++ k, by simp⟩

/-- If `p ++ q` is a prefix then so is `p`. -/
theorem isPrefixOf_weakenL (p q s : PyStr) (h : (p ++ q).isPrefixOf s = true) :
    p.isPrefixOf s = true := by
  obtain ⟨t, rfl⟩ := (isPrefixOf_exists (p ++ q) s).mp h
  exact (isPrefixOf_exists p _).mpr ⟨q ++ t, by simp⟩

/-- Weakening for the substring test: an occurrence of `p ++ q` yields an
occurrence of `p`. -/
theorem containsSub_weaken (p q : PyStr) :
    ∀ s : PyStr, containsSub (p ++ q) s = true → containsSub p s = true := by
  intro s
  induction s with
  | nil =>
    simp only [containsSub, List.isEmpty_iff, List.append_eq_nil]
    rintro ⟨rfl, rfl⟩
    rfl
  | cons c t ih =>
    simp only [containsSub, Bool.or_eq_true]
    rintro (h | h)
    · exact Or.inl (isPrefixOf_weakenL p q _ h)
    · exact Or.inr (ih h)

/-! Structural lemmas about `parse_dependency_string`. -/

/-- The classification chain always reports the claim-C1 base name. -/
theorem classifyCleaned_base_name (o c : PyStr) :
    (classifyCleaned o c).base_name = some (specBaseName c) := by
  unfold classifyCleaned specBaseName
  by_cases h1 : (pyOf "git+").isPrefixOf c = true
  · simp [h1]
  · by_cases h2 : containsSub (pyOf " @ git+") c = true
    · have h3 : containsSub (pyOf " @ ") c = true := by
        refine containsSub_weaken (pyOf " @ ") (pyOf "git+") c ?_
        exact h2
      simp [h1, h2, h3]
    · by_cases h3 : containsSub (pyOf " @ ") c = true
      · simp [h1, h2, h3]
      · simp [h1, h2, h3]

/-- The classification chain records the cleaned string it was given. -/
theorem classifyCleaned_cleaned_str (o c : PyStr) :
    (classifyCleaned o c).cleaned_str = some c := by
  unfold classifyCleaned
  split
  · rfl
  · split
    · rfl
    · split
      · rfl
      · rfl

/-- The classification chain never reports a comment, pip command or skip. -/
theorem classifyCleaned_flags (o c : PyStr) :
    (classifyCleaned o c).is_comment = false ∧ (classifyCleaned o c).is_pip_command = false ∧
      (classifyCleaned o c).skip = false := by
  unfold classifyCleaned
  split
  · exact ⟨rfl, rfl, rfl⟩
  · split
    · exact ⟨rfl, rfl, rfl⟩
    · split
      · exact ⟨rfl, rfl, rfl⟩
      · exact ⟨rfl, rfl, rfl⟩

/-- Only the `original_str` field of the classification chain depends on the
original line. -/
theorem classifyCleaned_congr (o o' c : PyStr) :
    classifyCleaned o c = { classifyCleaned o' c with original_str := o } := by
  unfold classifyCleaned
  split
  · rfl
  · split
    · rfl
    · split
      · rfl
      · rfl

/-- A line classified as neither comment, pip command nor skip goes through
the final classification chain on its cleaned text. -/
theorem parse_active_form (x : PyStr)
    (h1 : (parse_dependency_string x).is_comment = false)
    (h2 : (parse_dependency_string x).is_pip_command = false)
    (h3 : (parse_dependency_string x).skip = false) :
    (pyOf "#").isPrefixOf (pyStrip x) = false ∧
      (pyOf "--").isPrefixOf (pyStrip x) = false ∧
      (cleanedOf (pyStrip x)).isEmpty = false ∧
      parse_dependency_string x = classifyCleaned x (cleanedOf (pyStrip x)) := by
  by_cases hA : (pyOf "#").isPrefixOf (pyStrip x) = true
  · exfalso
    simp only [parse_dependency_string, hA, if_true] at h1
    exact absurd h1 (by simp)
  · by_cases hB : (pyOf "--").isPrefixOf (pyStrip x) = true
    · exfalso
      simp only [parse_dependency_string] at h2
      rw [if_neg (by simp [hA]), if_pos (by simp [hB])] at h2
      exact absurd h2 (by simp)
    · by_cases hC : (cleanedOf (pyStrip x)).isEmpty = true
      · exfalso
        simp only [parse_dependency_string] at h3
        rw [if_neg (by simp [hA]), if_neg (by simp [hB]), if_pos (by simp [hC])] at h3
        exact absurd h3 (by simp)
      · refine ⟨bool_eq_false _ hA, bool_eq_false _ hB, bool_eq_false _ hC, ?_⟩
        simp only [parse_dependency_string]
        rw [if_neg hA, if_neg hB, if_neg hC]

/-- The cleaned text never contains `#`. -/
theorem cleanedOf_noHash (s : PyStr) : (cleanedOf s).contains '#' = false := by
  unfold cleanedOf
  by_cases h : s.contains '#' = true
  · rw [if_pos h]
    refine (contains_false_iff _ _).mpr ?_
    intro hm
    have h2 := mem_of_mem_pyStrip _ _ hm
    have h3 := List.mem_takeWhile_imp h2
    simp at h3
  · rw [if_neg h]
    exact bool_eq_false _ h

/-- Stripping is the identity on cleaned text built from stripped input. -/
theorem cleanedOf_strip_fixed (w : PyStr) :
    pyStrip (cleanedOf (pyStrip w)) = cleanedOf (pyStrip w) := by
  unfold cleanedOf
  by_cases h : (pyStrip w).contains '#' = true
  · rw [if_pos h]
    exact pyStrip_idem _
  · rw [if_neg h]
    exact pyStrip_idem w

/-- The cleaned text of stripped input is an initial segment of it. -/
theorem cleanedOf_sub_of_strip (w : PyStr) :
    ∃ k, pyStrip w = cleanedOf (pyStrip w) ++ k := by
  unfold cleanedOf
  by_cases h : (pyStrip w).contains '#' = true
  · rw [if_pos h]
    cases hs : pyStrip w with
    | nil => exact ⟨[], by simp [show pyStrip [] = [] from rfl]⟩
    | cons c0 s2 =>
      have hns := pyStrip_head_nonspace w c0 s2 hs
      by_cases hp : ((fun c => !(c == '#')) c0) = true
      · have htw : List.takeWhile (fun c => !(c == '#')) (c0 :: s2) =
            c0 :: List.takeWhile (fun c => !(c == '#')) s2 :=
          List.takeWhile_cons_of_pos hp
        rw [htw]
        have ht : pyStrip (c0 :: List.takeWhile (fun c => !(c == '#')) s2) =
            pyRStrip (c0 :: List.takeWhile (fun c => !(c == '#')) s2) := by
          show pyRStrip (pyLStrip _) = _
          rw [pyLStrip_of_head_nonspace c0 _ hns]
        obtain ⟨m2, hm2⟩ := pyRStrip_exists_append (c0 :: List.takeWhile (fun c => !(c == '#')) s2)
        obtain ⟨m, hm⟩ : ∃ m, c0 :: s2 = (c0 :: List.takeWhile (fun c => !(c == '#')) s2) ++ m := by
          refine ⟨List.dropWhile (fun c => !(c == '#')) s2, ?_⟩
          have hd : List.dropWhile (fun c => !(c == '#')) (c0 :: s2) =
              List.dropWhile (fun c => !(c == '#')) s2 :=
            List.dropWhile_cons_of_pos hp
          have hh := List.takeWhile_append_dropWhile (fun c => !(c == '#')) (c0 :: s2)
          conv_lhs => rw [← hh]
          rw [htw, hd]
        refine ⟨m2 ++ m, ?_⟩
        rw [ht, ← List.append_assoc, ← hm2, hm]
      · have htw : List.takeWhile (fun c => !(c == '#')) (c0 :: s2) = [] :=
          List.takeWhile_cons_of_neg hp
        rw [htw]
        exact ⟨c0 :: s2, by simp [show pyStrip [] = [] from rfl]⟩
  · rw [if_neg h]
    exact ⟨[], by simp⟩

/-- The cleaned text of a non-flag stripped line is not a flag. -/
theorem cleanedOf_no2dash (w : PyStr) (h : (pyOf "--").isPrefixOf (pyStrip w) = false) :
    (pyOf "--").isPrefixOf (cleanedOf (pyStrip w)) = false := by
  refine bool_eq_false _ ?_
  intro hc
  obtain ⟨k, hk⟩ := cleanedOf_sub_of_strip w
  have hpre := isPrefixOf_append_more (pyOf "--") _ k hc
  rw [← hk] at hpre
  exact bool_ne_true _ h hpre

/-- A `#`-free string does not start with `#`. -/
theorem noHash_no_hashPre (c : PyStr) (h : c.contains '#' = false) :
    (pyOf "#").isPrefixOf c = false := by
  cases c with
  | nil => rfl
  | cons a t =>
    refine bool_eq_false _ ?_
    intro hc
    obtain ⟨u, hu⟩ := (isPrefixOf_exists (pyOf "#") (a :: t)).mp hc
    have hm : '#' ∈ a :: t := by rw [hu]; exact List.mem_append_left _ (by simp [pyOf])
    exact (contains_false_iff _ _).mp h hm

/-- Re-parsing an already-cleaned string lands in the classification chain
directly. -/
theorem parse_of_clean (c : PyStr) (h1 : c.isEmpty = false) (h2 : pyStrip c = c)
    (h3 : c.contains '#' = false) (h4 : (pyOf "--").isPrefixOf c = false) :
    parse_dependency_string c = classifyCleaned c c := by
  have h5 : (pyOf "#").isPrefixOf c = false := noHash_no_hashPre c h3
  have hcl : cleanedOf c = c := by
    unfold cleanedOf
    rw [if_neg (bool_ne_true _ h3)]
  simp only [parse_dependency_string, h2]
  rw [if_neg (bool_ne_true _ h5), if_neg (bool_ne_true _ h4), hcl,
    if_neg (bool_ne_true _ h1)]

/-- Claim C1: for every non-comment, non-flag, non-skipped line the extracted
base name is exactly the claim's specification applied to the cleaned text
(`git+` lines verbatim; ` @ ` lines take the piece before ` @ `, trimmed and
lowercased; otherwise lowercase and cut at the first of `<>=!~`, trimmed), and
in particular `torch>=2.0.1`, `torch` and `Torch==1.2` all yield base name
`torch`. -/
theorem claim_C1 (s : PyStr)
    (h1 : (parse_dependency_string s).is_comment = false)
    (h2 : (parse_dependency_string s).is_pip_command = false)
    (h3 : (parse_dependency_string s).skip = false) :
    (parse_dependency_string s).base_name =
        ((parse_dependency_string s).cleaned_str).map specBaseName ∧
      (parse_dependency_string (pyOf "torch>=2.0.1")).base_name = some (pyOf "torch") ∧
      (parse_dependency_string (pyOf "torch")).base_name = some (pyOf "torch") ∧
      (parse_dependency_string (pyOf "Torch==1.2")).base_name = some (pyOf "torch") := by
  obtain ⟨-, -, -, hEq⟩ := parse_active_form s h1 h2 h3
  refine ⟨?_, rfl, rfl, rfl⟩
  rw [hEq, classifyCleaned_cleaned_str, classifyCleaned_base_name]
  rfl

/-- Witness for C1 at the concrete line `torch>=2.0.1`. -/
theorem claim_C1_witness :
    (parse_dependency_string (pyOf "torch>=2.0.1")).is_comment = false ∧
      (parse_dependency_string (pyOf "torch>=2.0.1")).is_pip_command = false ∧
      (parse_dependency_string (pyOf "torch>=2.0.1")).skip = false ∧
      ((parse_dependency_string (pyOf "torch>=2.0.1")).base_name =
          ((parse_dependency_string (pyOf "torch>=2.0.1")).cleaned_str).map specBaseName ∧
        (parse_dependency_string (pyOf "torch>=2.0.1")).base_name = some (pyOf "torch") ∧
        (parse_dependency_string (pyOf "torch")).base_name = some (pyOf "torch") ∧
        (parse_dependency_string (pyOf "Torch==1.2")).base_name = some (pyOf "torch")) := by
  refine ⟨rfl, rfl, rfl, ?_⟩
  have h := claim_C1 (pyOf "torch>=2.0.1") rfl rfl rfl
  exact ⟨h.1, rfl, rfl, rfl⟩

/-- Counterexample to C5 as stated: the empty line is tagged neither comment
nor flag, yet re-classifying its `cleaned_str` (which is null, and which the
Python call chain would stringify to `"None"`) flips `skip` from true to
false, so classification is not idempotent on it. -/
theorem claim_C5_counterexample :
    (parse_dependency_string (pyOf "")).is_comment = false ∧
      (parse_dependency_string (pyOf "")).is_pip_command = false ∧
      (parse_dependency_string (pyOf "")).skip = true ∧
      (parse_dependency_opt (parse_dependency_string (pyOf "")).cleaned_str).skip = false ∧
      (parse_dependency_opt (parse_dependency_string (pyOf "")).cleaned_str).base_name =
        some (pyOf "none") := by
  exact ⟨rfl, rfl, rfl, rfl, rfl⟩

/-- Claim C5 (amended): for every input that classify tags neither as a
comment nor as a flag nor as skipped (its cleaned text is non-empty),
re-classifying `cleaned_str` reproduces the same base name, the same
classification tag (comment / flag / git fields) and the same skip value. -/
theorem claim_C5 (x : PyStr)
    (h1 : (parse_dependency_string x).is_comment = false)
    (h2 : (parse_dependency_string x).is_pip_command = false)
    (h3 : (parse_dependency_string x).skip = false) :
    (parse_dependency_opt (parse_dependency_string x).cleaned_str).base_name =
        (parse_dependency_string x).base_name ∧
      (parse_dependency_opt (parse_dependency_string x).cleaned_str).is_comment =
        (parse_dependency_string x).is_comment ∧
      (parse_dependency_opt (parse_dependency_string x).cleaned_str).is_pip_command =
        (parse_dependency_string x).is_pip_command ∧
      (parse_dependency_opt (parse_dependency_string x).cleaned_str).is_git_dep =
        (parse_dependency_string x).is_git_dep ∧
      (parse_dependency_opt (parse_dependency_string x).cleaned_str).git_dep_type =
        (parse_dependency_string x).git_dep_type ∧
      (parse_dependency_opt (parse_dependency_string x).cleaned_str).skip =
        (parse_dependency_string x).skip ∧
      (parse_dependency_opt (parse_dependency_string x).cleaned_str).cleaned_str =
        (parse_dependency_string x).cleaned_str := by
  obtain ⟨hA, hB, hC, hEq⟩ := parse_active_form x h1 h2 h3
  have hcs : (parse_dependency_string x).cleaned_str = some (cleanedOf (pyStrip x)) := by
    rw [hEq, classifyCleaned_cleaned_str]
  have hre : parse_dependency_string (cleanedOf (pyStrip x)) =
      classifyCleaned (cleanedOf (pyStrip x)) (cleanedOf (pyStrip x)) :=
    parse_of_clean _ hC (cleanedOf_strip_fixed x) (cleanedOf_noHash (pyStrip x))
      (cleanedOf_no2dash x hB)
  have hopt : parse_dependency_opt (parse_dependency_string x).cleaned_str =
      classifyCleaned (cleanedOf (pyStrip x)) (cleanedOf (pyStrip x)) := by
    rw [hcs]; exact hre
  have hcongr := classifyCleaned_congr (cleanedOf (pyStrip x)) x (cleanedOf (pyStrip x))
  rw [hopt, hcongr, hEq]
  exact ⟨rfl, rfl, rfl, rfl, rfl, rfl, rfl⟩

/-- Witness for C5 (amended) at the concrete line `torch==2.0`. -/
theorem claim_C5_witness :
    (parse_dependency_string (pyOf "torch==2.0")).is_comment = false ∧
      (parse_dependency_string (pyOf "torch==2.0")).is_pip_command = false ∧
      (parse_dependency_string (pyOf "torch==2.0")).skip = false ∧
      (parse_dependency_opt (parse_dependency_string (pyOf "torch==2.0")).cleaned_str).base_name =
        (parse_dependency_string (pyOf "torch==2.0")).base_name := by
  exact ⟨rfl, rfl, rfl, (claim_C5 (pyOf "torch==2.0") rfl rfl rfl).1⟩

/-- Claim C9: a line whose trimmed text starts with `#` is classified as a
comment with `skip = true`, a null base name, and none of the other tags, and
inline-comment stripping is never reached (`cleaned_str` is null). -/
theorem claim_C9 (s : PyStr) (h : (pyOf "#").isPrefixOf (pyStrip s) = true) :
    (parse_dependency_string s).is_comment = true ∧
      (parse_dependency_string s).skip = true ∧
      (parse_dependency_string s).base_name = none ∧
      (parse_dependency_string s).is_pip_command = false ∧
      (parse_dependency_string s).is_git_dep = false ∧
      (parse_dependency_string s).cleaned_str = none := by
  simp [parse_dependency_string, h]

/-- Witness for C9 at the concrete line `# torch`. -/
theorem claim_C9_witness :
    (pyOf "#").isPrefixOf (pyStrip (pyOf "# torch")) = true ∧
      (parse_dependency_string (pyOf "# torch")).is_comment = true ∧
      (parse_dependency_string (pyOf "# torch")).skip = true ∧
      (parse_dependency_string (pyOf "# torch")).base_name = none := by
  have h := claim_C9 (pyOf "# torch") rfl
  exact ⟨rfl, h.1, h.2.1, h.2.2.1⟩

/-! Counting lemmas for the single-dependency inspector. -/

/-- One inspector step appends one `nodes_using` entry exactly on lines
satisfying the C2 match predicate. -/
theorem processSDLine_using_len (rm : List (String × Nat)) (ql : PyStr) (id : String)
    (nd : PyNode) (acc : SDAcc) (dep : PyStr) :
    ((processSDLine rm ql id nd acc dep).nodes_using).length =
      acc.nodes_using.length + (if matchPredB ql dep then 1 else 0) := by
  unfold processSDLine
  by_cases hC : (parse_dependency_string dep).is_comment = true
  · rw [if_pos hC]
    have hpred : matchPredB ql dep = false := by simp [matchPredB, hC]
    rw [hpred, if_neg (bool_ne_true false rfl)]
    simp only []
    split <;> simp
  · rw [if_neg hC]
    have hC' := bool_eq_false _ hC
    by_cases hSP :
      ((parse_dependency_string dep).skip || (parse_dependency_string dep).is_pip_command) = true
    · rw [if_pos hSP]
      have hor := hSP
      rw [Bool.or_eq_true] at hor
      have hpred : matchPredB ql dep = false := by
        rcases hor with h | h <;> simp [matchPredB, h]
      rw [hpred, if_neg (bool_ne_true false rfl)]
      simp
    · rw [if_neg hSP]
      by_cases hM : ((parse_dependency_string dep).base_name == some ql) = true
      · rw [if_pos hM]
        have hS : (parse_dependency_string dep).skip = false := by
          cases h1 : (parse_dependency_string dep).skip
          · rfl
          · exact absurd (by rw [h1]; rfl) hSP
        have hP : (parse_dependency_string dep).is_pip_command = false := by
          cases h1 : (parse_dependency_string dep).is_pip_command
          · rfl
          · exact absurd (by rw [h1]; simp) hSP
        have hpred : matchPredB ql dep = true := by
          simp [matchPredB, hC', hS, hP, hM]
        rw [hpred, if_pos rfl]
        simp only []
        split <;> simp
      · rw [if_neg hM]
        have hpred : matchPredB ql dep = false := by
          simp [matchPredB, bool_eq_false _ hM]
        rw [hpred, if_neg (bool_ne_true false rfl)]
        simp

/-- One inspector step appends one commented-evidence entry exactly on lines
satisfying the C6 comment predicate. -/
theorem processSDLine_comm_len (rm : List (String × Nat)) (ql : PyStr) (id : String)
    (nd : PyNode) (acc : SDAcc) (dep : PyStr) :
    ((processSDLine rm ql id nd acc dep).nodes_with_commented).length =
      acc.nodes_with_commented.length + (if commentPredB ql dep then 1 else 0) := by
  unfold processSDLine
  by_cases hC : (parse_dependency_string dep).is_comment = true
  · rw [if_pos hC]
    by_cases hM2 :
      ((parse_dependency_string (pyStrip (dep.drop 1))).base_name == some ql) = true
    · rw [if_pos hM2]
      have hM2' : (parse_dependency_string (pyStrip (dep.tail))).base_name = some ql := by
        simpa [List.drop_one] using hM2
      have hpred : commentPredB ql dep = true := by simp [commentPredB, hC, hM2']
      rw [hpred, if_pos rfl]
      simp
    · rw [if_neg hM2]
      have hM2' : ¬(parse_dependency_string (pyStrip (dep.tail))).base_name = some ql := by
        simpa [List.drop_one] using hM2
      have hpred : commentPredB ql dep = false := by
        simp [commentPredB, hM2']
      rw [hpred, if_neg (bool_ne_true false rfl)]
      simp
  · rw [if_neg hC]
    have hpred : commentPredB ql dep = false := by
      simp [commentPredB, bool_eq_false _ hC]
    rw [hpred, if_neg (bool_ne_true false rfl)]
    simp only []
    split
    · simp
    · split
      · split <;> simp
      · simp

/-- Folding the inspector over a dependency list adds the number of matching
lines to the `nodes_using` length. -/
theorem foldSD_using_len (rm : List (String × Nat)) (ql : PyStr) (id : String)
    (nd : PyNode) :
    ∀ (deps : List PyStr) (acc : SDAcc),
      ((deps.foldl (processSDLine rm ql id nd) acc).nodes_using).length =
        acc.nodes_using.length + deps.countP (matchPredB ql) := by
  intro deps
  induction deps with
  | nil => intro acc; simp
  | cons d ds ih =>
    intro acc
    rw [List.foldl_cons, ih, processSDLine_using_len, List.countP_cons]
    cases hm : matchPredB ql d <;> simp [hm] <;> omega

/-- Folding the inspector over a dependency list adds the number of
comment-matching lines to the commented-evidence length. -/
theorem foldSD_comm_len (rm : List (String × Nat)) (ql : PyStr) (id : String)
    (nd : PyNode) :
    ∀ (deps : List PyStr) (acc : SDAcc),
      ((deps.foldl (processSDLine rm ql id nd) acc).nodes_with_commented).length =
        acc.nodes_with_commented.length + deps.countP (commentPredB ql) := by
  intro deps
  induction deps with
  | nil => intro acc; simp
  | cons d ds ih =>
    intro acc
    rw [List.foldl_cons, ih, processSDLine_comm_len, List.countP_cons]
    cases hm : commentPredB ql d <;> simp [hm] <;> omega

/-- Folding the inspector over the whole entity collection sums the per-entity
match counts. -/
theorem foldNodes_using_len (rm : List (String × Nat)) (ql : PyStr) :
    ∀ (nodes : List (String × PyNode)) (acc : SDAcc),
      ((nodes.foldl
          (fun a en => (depsOfNode en.2).foldl (processSDLine rm ql en.1 en.2) a)
          acc).nodes_using).length =
        acc.nodes_using.length +
          (nodes.map (fun en => (depsOfNode en.2).countP (matchPredB ql))).sum := by
  intro nodes
  induction nodes with
  | nil => intro acc; simp
  | cons en ns ih =>
    intro acc
    rw [List.foldl_cons, ih, foldSD_using_len]
    simp [Nat.add_assoc]

/-- Folding the inspector over the whole entity collection sums the per-entity
comment-evidence counts. -/
theorem foldNodes_comm_len (rm : List (String × Nat)) (ql : PyStr) :
    ∀ (nodes : List (String × PyNode)) (acc : SDAcc),
      ((nodes.foldl
          (fun a en => (depsOfNode en.2).foldl (processSDLine rm ql en.1 en.2) a)
          acc).nodes_with_commented).length =
        acc.nodes_with_commented.length +
          (nodes.map (fun en => (depsOfNode en.2).countP (commentPredB ql))).sum := by
  intro nodes
  induction nodes with
  | nil => intro acc; simp
  | cons en ns ih =>
    intro acc
    rw [List.foldl_cons, ih, foldSD_comm_len]
    simp [Nat.add_assoc]

/-- Claim C2: the inspector's `total_nodes` is the sum, over all entities, of
the number of their active dependency lines (not comments, not flags, not
skipped) whose classified base name equals the lowercased query; one match
entry is recorded per line, so an entity with two matching lines contributes
two to the sum. -/
theorem claim_C2 (nodes : List (String × PyNode)) (dep_name : PyStr) :
    (analyze_specific_dependency nodes dep_name).total_nodes =
      (nodes.map
        (fun en => (depsOfNode en.2).countP (matchPredB (pyLower dep_name)))).sum := by
  unfold analyze_specific_dependency
  simp only []
  rw [foldNodes_using_len]
  simp

/-- Counterexample to C6 as stated: the line `" #numpy"` (comment preceded by
whitespace) has `numpy` as the text after its leading `#`, and that text's
base name equals the query, yet the inspector records no commented-out
evidence for it, because the code removes the first character of the original
unstripped line rather than the text after the `#`. -/
theorem claim_C6_counterexample :
    (parse_dependency_string (pyOf " #numpy")).is_comment = true ∧
      (parse_dependency_string
          (List.drop 1 (List.dropWhile (fun c => !(c == '#')) (pyOf " #numpy")))).base_name =
        some (pyOf "numpy") ∧
      (analyze_specific_dependency cexSpaceComment (pyOf "numpy")).commented_count = 0 := by
  exact ⟨rfl, rfl, rfl⟩

/-- Claim C6 (amended): for every comment-tagged line the inspector re-parses
the original line with its first character removed (which is the text after
the leading `#` exactly when the line has no leading whitespace) and records
one commented-evidence entry whenever that re-parse's base name equals the
lowercased query; the commented-evidence list is independent of the active
list, and an entity declaring the dependency active on one line and commented
on another appears in both. -/
theorem claim_C6 (nodes : List (String × PyNode)) (dep_name : PyStr) :
    (analyze_specific_dependency nodes dep_name).commented_count =
        (nodes.map
          (fun en => (depsOfNode en.2).countP (commentPredB (pyLower dep_name)))).sum ∧
      (analyze_specific_dependency cexBoth (pyOf "numpy")).nodes_using.map
          UsingEntry.node_id = ["n"] ∧
      (analyze_specific_dependency cexBoth (pyOf "numpy")).nodes_with_commented.map
          CommentedEntry.node_id = ["n"] := by
  refine ⟨?_, rfl, rfl⟩
  unfold analyze_specific_dependency
  simp only []
  rw [foldNodes_comm_len]
  simp

/-! Lemmas about the aggregator `compile_dependencies`. -/

/-- Fields of the accumulator untouched by the pip-record step. -/
theorem recordPip_parts (en : String × PyNode) (la : LineAcc) (acc : CompileAcc) :
    (recordPip en la acc).nodes_with_deps = acc.nodes_with_deps ∧
      (recordPip en la acc).nodes_without_deps = acc.nodes_without_deps ∧
      (recordPip en la acc).all_dependencies = acc.all_dependencies ∧
      (recordPip en la acc).base_dependency_count = acc.base_dependency_count := by
  unfold recordPip
  split
  · exact ⟨rfl, rfl, rfl, rfl⟩
  · exact ⟨rfl, rfl, rfl, rfl⟩

/-- Fields of the accumulator untouched by the commented-record step. -/
theorem recordCommented_parts (en : String × PyNode) (la : LineAcc) (acc : CompileAcc) :
    (recordCommented en la acc).nodes_with_deps = acc.nodes_with_deps ∧
      (recordCommented en la acc).nodes_without_deps = acc.nodes_without_deps ∧
      (recordCommented en la acc).all_dependencies = acc.all_dependencies ∧
      (recordCommented en la acc).base_dependency_count = acc.base_dependency_count ∧
      (recordCommented en la acc).nodes_with_pip = acc.nodes_with_pip := by
  unfold recordCommented
  split
  · exact ⟨rfl, rfl, rfl, rfl, rfl⟩
  · exact ⟨rfl, rfl, rfl, rfl, rfl⟩

/-- Fields of the accumulator untouched by the git-record step. -/
theorem recordGit_parts (en : String × PyNode) (la : LineAcc) (acc : CompileAcc) :
    (recordGit en la acc).nodes_with_deps = acc.nodes_with_deps ∧
      (recordGit en la acc).nodes_without_deps = acc.nodes_without_deps ∧
      (recordGit en la acc).all_dependencies = acc.all_dependencies ∧
      (recordGit en la acc).base_dependency_count = acc.base_dependency_count ∧
      (recordGit en la acc).nodes_with_pip = acc.nodes_with_pip := by
  unfold recordGit
  split
  · exact ⟨rfl, rfl, rfl, rfl, rfl⟩
  · exact ⟨rfl, rfl, rfl, rfl, rfl⟩

/-- Fields of the accumulator untouched by the partition step. -/
theorem recordPartition_parts (en : String × PyNode) (la : LineAcc) (acc : CompileAcc) :
    (recordPartition en la acc).all_dependencies = acc.all_dependencies ∧
      (recordPartition en la acc).base_dependency_count = acc.base_dependency_count ∧
      (recordPartition en la acc).nodes_with_pip = acc.nodes_with_pip := by
  unfold recordPartition
  split
  · exact ⟨rfl, rfl, rfl⟩
  · exact ⟨rfl, rfl, rfl⟩

/-- The partition step grows the two partitions by exactly one node total. -/
theorem recordPartition_len (en : String × PyNode) (la : LineAcc) (acc : CompileAcc) :
    (recordPartition en la acc).nodes_with_deps.length +
        (recordPartition en la acc).nodes_without_deps.length =
      acc.nodes_with_deps.length + acc.nodes_without_deps.length + 1 := by
  unfold recordPartition
  split <;> (simp [Nat.add_assoc]; try omega)

/-- Counting occurrences of an id after appending one element. -/
theorem count_app_single (l : List String) (e x : String) :
    (l ++ [e]).count x = l.count x + (if e = x then 1 else 0) := by
  by_cases h : e = x
  · subst h; simp
  · have hz : List.count x [e] = 0 := by
      rw [List.count_eq_zero]
      intro hm
      rw [List.mem_singleton] at hm
      exact h hm.symm
    rw [List.count_append, hz]
    simp [h]

/-- The partition step adds the processed node's id to exactly one side. -/
theorem recordPartition_cnt (en : String × PyNode) (la : LineAcc) (acc : CompileAcc)
    (x : String) :
    ((recordPartition en la acc).nodes_with_deps.map NodeDeps.id).count x +
        ((recordPartition en la acc).nodes_without_deps).count x =
      (acc.nodes_with_deps.map NodeDeps.id).count x + (acc.nodes_without_deps).count x +
        (if en.1 = x then 1 else 0) := by
  unfold recordPartition
  split
  · show (acc.nodes_with_deps.map NodeDeps.id).count x +
        (acc.nodes_without_deps ++ [en.1]).count x =
      (acc.nodes_with_deps.map NodeDeps.id).count x + acc.nodes_without_deps.count x +
        (if en.1 = x then 1 else 0)
    rw [count_app_single]
    omega
  · show ((acc.nodes_with_deps ++ [(⟨en.1, nodeName en.2, la.active⟩ : NodeDeps)]).map
        NodeDeps.id).count x +
        acc.nodes_without_deps.count x =
      (acc.nodes_with_deps.map NodeDeps.id).count x + acc.nodes_without_deps.count x +
        (if en.1 = x then 1 else 0)
    rw [List.map_append]
    rw [show (List.map NodeDeps.id [(⟨en.1, nodeName en.2, la.active⟩ : NodeDeps)]) =
      [en.1] from rfl]
    rw [count_app_single]
    omega

/-- The record chain after the inner loop grows the partitions by one. -/
theorem recordChain_len (en : String × PyNode) (la : LineAcc) (acc : CompileAcc) :
    (recordPartition en la (recordGit en la (recordCommented en la
        (recordPip en la acc)))).nodes_with_deps.length +
      (recordPartition en la (recordGit en la (recordCommented en la
        (recordPip en la acc)))).nodes_without_deps.length =
      acc.nodes_with_deps.length + acc.nodes_without_deps.length + 1 := by
  obtain ⟨p1, p2, -, -⟩ := recordPip_parts en la acc
  obtain ⟨c1, c2, -, -, -⟩ := recordCommented_parts en la (recordPip en la acc)
  obtain ⟨g1, g2, -, -, -⟩ := recordGit_parts en la (recordCommented en la (recordPip en la acc))
  rw [recordPartition_len, g1, g2, c1, c2, p1, p2]

/-- The record chain adds the node's id to exactly one partition. -/
theorem recordChain_cnt (en : String × PyNode) (la : LineAcc) (acc : CompileAcc) (x : String) :
    ((recordPartition en la (recordGit en la (recordCommented en la
        (recordPip en la acc)))).nodes_with_deps.map NodeDeps.id).count x +
      (recordPartition en la (recordGit en la (recordCommented en la
        (recordPip en la acc)))).nodes_without_deps.count x =
      (acc.nodes_with_deps.map NodeDeps.id).count x + acc.nodes_without_deps.count x +
        (if en.1 = x then 1 else 0) := by
  obtain ⟨p1, p2, -, -⟩ := recordPip_parts en la acc
  obtain ⟨c1, c2, -, -, -⟩ := recordCommented_parts en la (recordPip en la acc)
  obtain ⟨g1, g2, -, -, -⟩ := recordGit_parts en la (recordCommented en la (recordPip en la acc))
  rw [recordPartition_cnt, g1, g2, c1, c2, p1, p2]

/-- One inner-loop step never touches the node-partition lists or the pip
node list of the threaded accumulators. -/
theorem processLine_g_parts (la : LineAcc) (dep : PyStr) :
    (processLine la dep).g.nodes_with_deps = la.g.nodes_with_deps ∧
      (processLine la dep).g.nodes_without_deps = la.g.nodes_without_deps ∧
      (processLine la dep).g.nodes_with_pip = la.g.nodes_with_pip := by
  unfold processLine
  simp only []
  split
  · exact ⟨rfl, rfl, rfl⟩
  · split
    · exact ⟨rfl, rfl, rfl⟩
    · split
      · exact ⟨rfl, rfl, rfl⟩
      · split
        · exact ⟨rfl, rfl, rfl⟩
        · exact ⟨rfl, rfl, rfl⟩

/-- The whole inner loop never touches the node-partition lists or the pip
node list. -/
theorem foldLines_g_parts (deps : List PyStr) :
    ∀ la : LineAcc,
      ((deps.foldl processLine la).g.nodes_with_deps = la.g.nodes_with_deps ∧
        (deps.foldl processLine la).g.nodes_without_deps = la.g.nodes_without_deps ∧
        (deps.foldl processLine la).g.nodes_with_pip = la.g.nodes_with_pip) := by
  induction deps with
  | nil => intro la; exact ⟨rfl, rfl, rfl⟩
  | cons d ds ih =>
    intro la
    obtain ⟨h1, h2, h3⟩ := ih (processLine la d)
    obtain ⟨k1, k2, k3⟩ := processLine_g_parts la d
    rw [List.foldl_cons]
    exact ⟨h1.trans k1, h2.trans k2, h3.trans k3⟩

/-- One outer-loop step grows the two partitions by exactly one node. -/
theorem processNode_partition_len (acc : CompileAcc) (en : String × PyNode) :
    (processNode acc en).nodes_with_deps.length +
        (processNode acc en).nodes_without_deps.length =
      acc.nodes_with_deps.length + acc.nodes_without_deps.length + 1 := by
  unfold processNode
  split
  · simp [Nat.add_assoc]
  · split
    · simp [Nat.add_assoc]
    · split
      · simp [Nat.add_assoc]
      · simp only []
        rw [recordChain_len]
        obtain ⟨hW, hO, -⟩ := foldLines_g_parts _
          { active := [], commented := [], pips := [], gits := [], g := acc }
        rw [hW, hO]

/-- One outer-loop step adds the node's id to exactly one partition. -/
theorem processNode_cnt (acc : CompileAcc) (en : String × PyNode) (x : String) :
    ((processNode acc en).nodes_with_deps.map NodeDeps.id).count x +
        (processNode acc en).nodes_without_deps.count x =
      (acc.nodes_with_deps.map NodeDeps.id).count x + acc.nodes_without_deps.count x +
        (if en.1 = x then 1 else 0) := by
  unfold processNode
  split
  · show (acc.nodes_with_deps.map NodeDeps.id).count x +
        (acc.nodes_without_deps ++ [en.1]).count x = _
    rw [count_app_single]
    omega
  · split
    · show (acc.nodes_with_deps.map NodeDeps.id).count x +
          (acc.nodes_without_deps ++ [en.1]).count x = _
      rw [count_app_single]
      omega
    · split
      · show (acc.nodes_with_deps.map NodeDeps.id).count x +
            (acc.nodes_without_deps ++ [en.1]).count x = _
        rw [count_app_single]
        omega
      · simp only []
        rw [recordChain_cnt]
        obtain ⟨hW, hO, -⟩ := foldLines_g_parts _
          { active := [], commented := [], pips := [], gits := [], g := acc }
        rw [hW, hO]

/-- Folding the outer loop adds one partition slot per node. -/
theorem foldNodes_partition_len :
    ∀ (nodes : List (String × PyNode)) (acc : CompileAcc),
      (nodes.foldl processNode acc).nodes_with_deps.length +
          (nodes.foldl processNode acc).nodes_without_deps.length =
        acc.nodes_with_deps.length + acc.nodes_without_deps.length + nodes.length := by
  intro nodes
  induction nodes with
  | nil => intro acc; simp
  | cons en ns ih =>
    intro acc
    rw [List.foldl_cons, ih, processNode_partition_len]
    simp only [List.length_cons]
    omega

/-- Folding the outer loop: each node key lands in exactly one partition. -/
theorem foldNodes_cnt :
    ∀ (nodes : List (String × PyNode)) (acc : CompileAcc) (x : String),
      ((nodes.foldl processNode acc).nodes_with_deps.map NodeDeps.id).count x +
          (nodes.foldl processNode acc).nodes_without_deps.count x =
        (acc.nodes_with_deps.map NodeDeps.id).count x + acc.nodes_without_deps.count x +
          (nodes.map Prod.fst).count x := by
  intro nodes
  induction nodes with
  | nil => intro acc x; simp
  | cons en ns ih =>
    intro acc x
    rw [List.foldl_cons, ih, processNode_cnt]
    rw [List.map_cons]
    by_cases h : en.1 = x
    · subst h
      simp [List.count_cons]
      try omega
    · rw [List.count_cons]
      simp [h]
      try omega

/-- Claim C3: the aggregator's "has active dependencies" and "no active
dependencies" partitions together contain every entity exactly once: their
sizes sum to the number of entities, and (given the entity keys are distinct,
as Python dict keys are) no id appears in both partitions. -/
theorem claim_C3 (nodes : List (String × PyNode)) (h : (nodes.map Prod.fst).Nodup) :
    (compile_dependencies nodes).nodes_with_deps_count +
        (compile_dependencies nodes).nodes_without_deps_count = nodes.length ∧
      ∀ id, id ∈ (compile_dependencies nodes).nodes_with_dependencies.map NodeDeps.id →
        id ∉ (compile_dependencies nodes).nodes_without_dependencies := by
  constructor
  · show (nodes.foldl processNode emptyCompileAcc).nodes_with_deps.length +
        (nodes.foldl processNode emptyCompileAcc).nodes_without_deps.length = nodes.length
    rw [foldNodes_partition_len]
    simp [emptyCompileAcc]
  · intro id hw ho
    have hcnt := foldNodes_cnt nodes emptyCompileAcc id
    have hle : (nodes.map Prod.fst).count id ≤ 1 :=
      List.nodup_iff_count_le_one.mp h id
    have hw1 : 0 <
        ((nodes.foldl processNode emptyCompileAcc).nodes_with_deps.map NodeDeps.id).count id :=
      List.count_pos_iff.mpr hw
    have ho1 : 0 <
        ((nodes.foldl processNode emptyCompileAcc).nodes_without_deps).count id :=
      List.count_pos_iff.mpr ho
    have hz : (emptyCompileAcc.nodes_with_deps.map NodeDeps.id).count id +
        emptyCompileAcc.nodes_without_deps.count id = 0 := rfl
    omega

/-- Witness for C3 on a concrete two-entity mapping with distinct keys. -/
theorem claim_C3_witness :
    (cexPair.map Prod.fst).Nodup ∧
      ((compile_dependencies cexPair).nodes_with_deps_count +
          (compile_dependencies cexPair).nodes_without_deps_count = cexPair.length ∧
        ∀ id, id ∈ (compile_dependencies cexPair).nodes_with_dependencies.map NodeDeps.id →
          id ∉ (compile_dependencies cexPair).nodes_without_dependencies) :=
  ⟨by decide, claim_C3 cexPair (by decide)⟩

/-- `bump` adds exactly one to the total of a count table. -/
theorem bump_sum (k : PyStr) :
    ∀ l : List (PyStr × Nat), sumCounts (bump k l) = sumCounts l + 1 := by
  intro l
  induction l with
  | nil => rfl
  | cons kv t ih =>
    cases kv with
    | mk k' n =>
      unfold bump
      split
      · simp [sumCounts]
        omega
      · simp only [sumCounts, List.map_cons, List.sum_cons] at ih ⊢
        rw [ih]
        omega

/-- One inner-loop step keeps the active-line total equal to the count-table
total. -/
theorem processLine_inv (la : LineAcc) (dep : PyStr)
    (h : la.g.all_dependencies.length = sumCounts la.g.base_dependency_count) :
    (processLine la dep).g.all_dependencies.length =
      sumCounts (processLine la dep).g.base_dependency_count := by
  unfold processLine
  simp only []
  split
  · exact h
  · split
    · exact h
    · split
      · exact h
      · split
        · show (la.g.all_dependencies ++
              [(parse_dependency_string dep).cleaned_str.getD []]).length =
            sumCounts (bump ((parse_dependency_string dep).base_name.getD [])
              la.g.base_dependency_count)
          rw [bump_sum, List.length_append, h]
          rfl
        · show (la.g.all_dependencies ++
              [(parse_dependency_string dep).cleaned_str.getD []]).length =
            sumCounts (bump ((parse_dependency_string dep).base_name.getD [])
              la.g.base_dependency_count)
          rw [bump_sum, List.length_append, h]
          rfl

/-- The inner loop keeps the active-line total equal to the count-table
total. -/
theorem foldLines_inv (deps : List PyStr) :
    ∀ la : LineAcc,
      la.g.all_dependencies.length = sumCounts la.g.base_dependency_count →
      (deps.foldl processLine la).g.all_dependencies.length =
        sumCounts (deps.foldl processLine la).g.base_dependency_count := by
  induction deps with
  | nil => intro la h; exact h
  | cons d ds ih =>
    intro la h
    rw [List.foldl_cons]
    exact ih _ (processLine_inv la d h)

/-- One outer-loop step keeps the active-line total equal to the count-table
total. -/
theorem processNode_inv (acc : CompileAcc) (en : String × PyNode)
    (h : acc.all_dependencies.length = sumCounts acc.base_dependency_count) :
    (processNode acc en).all_dependencies.length =
      sumCounts (processNode acc en).base_dependency_count := by
  unfold processNode
  split
  · exact h
  · split
    · exact h
    · split
      · exact h
      · simp only []
        obtain ⟨-, -, pA, pB, -⟩ := recordGit_parts en _ (recordCommented en _ (recordPip en _ _))
        obtain ⟨-, -, cA, cB, -⟩ := recordCommented_parts en _ (recordPip en _ _)
        obtain ⟨-, -, qA, qB⟩ := recordPip_parts en _
          ((_ : List PyStr).foldl processLine
            { active := [], commented := [], pips := [], gits := [], g := acc }).g
        obtain ⟨rA, rB, -⟩ := recordPartition_parts en _ (recordGit en _ (recordCommented en _ (recordPip en _ _)))
        rw [rA, rB, pA, pB, cA, cB, qA, qB]
        exact foldLines_inv _ _ h

/-- Claim C10: the aggregator's total active-dependency count equals both the
length of the collected active-dependency list and the sum over all base
names of the per-base-name usage counts. -/
theorem claim_C10 (nodes : List (String × PyNode)) :
    (compile_dependencies nodes).total_dependencies =
        (((compile_dependencies nodes).dependency_count).map Prod.snd).sum ∧
      (compile_dependencies nodes).total_dependencies =
        ((compile_dependencies nodes).all_dependencies).length := by
  constructor
  · show (nodes.foldl processNode emptyCompileAcc).all_dependencies.length =
      sumCounts (nodes.foldl processNode emptyCompileAcc).base_dependency_count
    clear * -
    induction nodes using List.reverseRecOn with
    | nil => rfl
    | append_singleton ns en ih =>
      rw [List.foldl_append]
      exact processNode_inv _ en ih
  · rfl

/-! Lemmas for the flags-only entity claim (C4). -/

/-- A line classified as a pip command is not a comment. -/
theorem parse_pip_not_comment (d : PyStr)
    (h : (parse_dependency_string d).is_pip_command = true) :
    (parse_dependency_string d).is_comment = false := by
  by_cases hA : (pyOf "#").isPrefixOf (pyStrip d) = true
  · exfalso
    simp only [parse_dependency_string, hA, if_true] at h
    exact absurd h (by simp)
  · simp only [parse_dependency_string]
    rw [if_neg hA]
    by_cases hB : (pyOf "--").isPrefixOf (pyStrip d) = true
    · rw [if_pos hB]
    · rw [if_neg hB]
      by_cases hC : (cleanedOf (pyStrip d)).isEmpty = true
      · rw [if_pos hC]
      · rw [if_neg hC]
        exact (classifyCleaned_flags d (cleanedOf (pyStrip d))).1

/-- Claim C4, flag-line step: a pip-command line is recorded in the pip lists
only and leaves the active list and the base-name count table unchanged. -/
theorem processLine_pip (la : LineAcc) (d : PyStr)
    (h : (parse_dependency_string d).is_pip_command = true) :
    processLine la d =
      { la with pips := la.pips ++ [(parse_dependency_string d).cleaned_str.getD []],
                g := { la.g with
                       pip_commands := la.g.pip_commands ++
                         [(parse_dependency_string d).cleaned_str.getD []],
                       pip_command_count :=
                         bump ((parse_dependency_string d).cleaned_str.getD [])
                           la.g.pip_command_count } } := by
  unfold processLine
  rw [if_neg (bool_ne_true _ (parse_pip_not_comment d h)), if_pos h]

/-- The inner loop over a list of pip-command lines leaves the active,
commented and git lists unchanged and appends each cleaned flag to the pip
list. -/
theorem foldLines_allpip (deps : List PyStr) :
    ∀ la : LineAcc, (∀ d ∈ deps, (parse_dependency_string d).is_pip_command = true) →
      (deps.foldl processLine la).active = la.active ∧
        (deps.foldl processLine la).pips =
          la.pips ++ deps.map (fun d => (parse_dependency_string d).cleaned_str.getD []) := by
  induction deps with
  | nil => intro la _; exact ⟨rfl, by simp⟩
  | cons d ds ih =>
    intro la h
    have hd := h d (List.mem_cons_self d ds)
    rw [List.foldl_cons, processLine_pip la d hd]
    obtain ⟨h1, h2⟩ := ih _ (fun e he => h e (List.mem_cons_of_mem d he))
    refine ⟨h1, ?_⟩
    rw [h2]
    simp

/-- Membership in the without-partition survives the partition step. -/
theorem recordPartition_without_mono (en : String × PyNode) (la : LineAcc)
    (acc : CompileAcc) (id : String) (h : id ∈ acc.nodes_without_deps) :
    id ∈ (recordPartition en la acc).nodes_without_deps := by
  unfold recordPartition
  split
  · exact List.mem_append_left _ h
  · exact h

/-- Membership in the pip node list survives the pip-record step. -/
theorem recordPip_pip_mono (en : String × PyNode) (la : LineAcc) (acc : CompileAcc)
    (e : NodePip) (h : e ∈ acc.nodes_with_pip) :
    e ∈ (recordPip en la acc).nodes_with_pip := by
  unfold recordPip
  split
  · exact h
  · exact List.mem_append_left _ h

/-- One outer-loop step preserves membership in the without-partition. -/
theorem processNode_without_mono (acc : CompileAcc) (en : String × PyNode) (id : String)
    (h : id ∈ acc.nodes_without_deps) : id ∈ (processNode acc en).nodes_without_deps := by
  unfold processNode
  split
  · exact List.mem_append_left _ h
  · split
    · exact List.mem_append_left _ h
    · split
      · exact List.mem_append_left _ h
      · simp only []
        apply recordPartition_without_mono
        obtain ⟨-, g2, -, -, -⟩ := recordGit_parts en _ (recordCommented en _ (recordPip en _ _))
        obtain ⟨-, c2, -, -, -⟩ := recordCommented_parts en _ (recordPip en _ _)
        obtain ⟨-, q2, -, -⟩ := recordPip_parts en _ _
        rw [g2, c2, q2]
        obtain ⟨-, hO, -⟩ := foldLines_g_parts _
          { active := [], commented := [], pips := [], gits := [], g := acc }
        rw [hO]
        exact h

/-- One outer-loop step preserves membership in the pip node list. -/
theorem processNode_pip_mono (acc : CompileAcc) (en : String × PyNode) (e : NodePip)
    (h : e ∈ acc.nodes_with_pip) : e ∈ (processNode acc en).nodes_with_pip := by
  unfold processNode
  split
  · exact h
  · split
    · exact h
    · split
      · exact h
      · simp only []
        obtain ⟨-, -, pPip⟩ := recordPartition_parts en _
          (recordGit en _ (recordCommented en _ (recordPip en _ _)))
        rw [pPip]
        obtain ⟨-, -, -, -, gPip⟩ := recordGit_parts en _ (recordCommented en _ (recordPip en _ _))
        rw [gPip]
        obtain ⟨-, -, -, -, cPip⟩ := recordCommented_parts en _ (recordPip en _ _)
        rw [cPip]
        apply recordPip_pip_mono
        obtain ⟨-, -, hP⟩ := foldLines_g_parts _
          { active := [], commented := [], pips := [], gits := [], g := acc }
        rw [hP]
        exact h

/-- Folding the outer loop preserves membership in the without-partition. -/
theorem foldNodes_without_mono (nodes : List (String × PyNode)) :
    ∀ (acc : CompileAcc) (id : String), id ∈ acc.nodes_without_deps →
      id ∈ (nodes.foldl processNode acc).nodes_without_deps := by
  induction nodes with
  | nil => intro acc id h; exact h
  | cons en ns ih =>
    intro acc id h
    rw [List.foldl_cons]
    exact ih _ id (processNode_without_mono acc en id h)

/-- Folding the outer loop preserves membership in the pip node list. -/
theorem foldNodes_pip_mono (nodes : List (String × PyNode)) :
    ∀ (acc : CompileAcc) (e : NodePip), e ∈ acc.nodes_with_pip →
      e ∈ (nodes.foldl processNode acc).nodes_with_pip := by
  induction nodes with
  | nil => intro acc e h; exact h
  | cons en ns ih =>
    intro acc e h
    rw [List.foldl_cons]
    exact ih _ e (processNode_pip_mono acc en e h)

/-- A node whose inner loop produced no active lines is put in the
without-partition by the partition step. -/
theorem recordPartition_self_without (en : String × PyNode) (la : LineAcc)
    (acc : CompileAcc) (h : la.active = []) :
    en.1 ∈ (recordPartition en la acc).nodes_without_deps := by
  unfold recordPartition
  rw [if_pos (show la.active.isEmpty = true by rw [h]; rfl)]
  exact List.mem_append_right _ (by simp)

/-- A node with at least one pip command gets its pip entry recorded. -/
theorem recordPip_self (en : String × PyNode) (la : LineAcc) (acc : CompileAcc)
    (h : la.pips ≠ []) :
    (⟨en.1, nodeName en.2, la.pips, la.active⟩ : NodePip) ∈
      (recordPip en la acc).nodes_with_pip := by
  have hie : la.pips.isEmpty = false := by
    cases hp : la.pips
    · exact absurd hp h
    · rfl
  unfold recordPip
  rw [if_neg (bool_ne_true _ hie)]
  exact List.mem_append_right _ (by simp)

/-- Processing an entity whose non-empty dependency list is all flag lines
puts its id in the without-partition and records a pip entry with an empty
active list. -/
theorem processNode_allpip (acc : CompileAcc) (id : String) (n : PyNode)
    (lv : LatestVersion) (ds : List PyStr) (hlv : n.latest_version = some lv)
    (hds : lv.dependencies = some ds) (hne : ds ≠ [])
    (hflags : ∀ d ∈ ds, (parse_dependency_string d).is_pip_command = true) :
    id ∈ (processNode acc (id, n)).nodes_without_deps ∧
      (⟨id, nodeName n,
          ds.map (fun d => (parse_dependency_string d).cleaned_str.getD []), []⟩ : NodePip) ∈
        (processNode acc (id, n)).nodes_with_pip := by
  have hie : ds.isEmpty = false := by
    cases ds
    · exact absurd rfl hne
    · rfl
  unfold processNode
  simp only [hlv, hds]
  rw [if_neg (bool_ne_true _ hie)]
  obtain ⟨hact, hpips⟩ := foldLines_allpip ds
    { active := [], commented := [], pips := [], gits := [], g := acc } hflags
  have hact' : (ds.foldl processLine
      { active := [], commented := [], pips := [], gits := [], g := acc }).active = [] := hact
  have hpips' : (ds.foldl processLine
      { active := [], commented := [], pips := [], gits := [], g := acc }).pips =
      ds.map (fun d => (parse_dependency_string d).cleaned_str.getD []) := by
    rw [hpips]
    simp
  constructor
  · exact recordPartition_self_without (id, n) _ _ hact'
  · obtain ⟨-, -, pPip⟩ := recordPartition_parts (id, n) _
      (recordGit (id, n) _ (recordCommented (id, n) _ (recordPip (id, n) _ _)))
    rw [pPip]
    obtain ⟨-, -, -, -, gPip⟩ := recordGit_parts (id, n) _
      (recordCommented (id, n) _ (recordPip (id, n) _ _))
    rw [gPip]
    obtain ⟨-, -, -, -, cPip⟩ := recordCommented_parts (id, n) _ (recordPip (id, n) _ _)
    rw [cPip]
    have hne' : (ds.foldl processLine
        { active := [], commented := [], pips := [], gits := [], g := acc }).pips ≠ [] := by
      rw [hpips']
      intro hmap
      exact hne (List.map_eq_nil_iff.mp hmap)
    have hmem := recordPip_self (id, n) _
      ((ds.foldl processLine
        { active := [], commented := [], pips := [], gits := [], g := acc }).g) hne'
    rw [show ((⟨(id, n).1, nodeName (id, n).2,
        (ds.foldl processLine
          { active := [], commented := [], pips := [], gits := [], g := acc }).pips,
        (ds.foldl processLine
          { active := [], commented := [], pips := [], gits := [], g := acc }).active⟩ :
        NodePip)) =
      (⟨id, nodeName n,
        ds.map (fun d => (parse_dependency_string d).cleaned_str.getD []), []⟩ : NodePip)
      from by rw [hact', hpips']] at hmem
    exact hmem

/-- Counterexample to C4 as stated: an entity whose dependency list is the
single flag line `--extra-index-url https://example.com` IS placed in the
"without dependencies" partition, because the code records flags in the pip
lists and `continue`s without ever appending them to `active_deps`. -/
theorem claim_C4_counterexample :
    (parse_dependency_string (pyOf "--extra-index-url https://example.com")).is_pip_command =
        true ∧
      (compile_dependencies cexFlags).nodes_without_dependencies = ["n1"] ∧
      (compile_dependencies cexFlags).nodes_with_pip_commands.map NodePip.active_deps =
        [[]] := by
  exact ⟨rfl, rfl, rfl⟩

/-- Claim C4 (amended): an entity whose dependency list is non-empty and
consists only of flag lines IS placed in the "without dependencies"
partition; its flags are recorded in the separate pip-command lists (the
entity appears in `nodes_with_pip_commands` with an empty active-deps list),
and a flag line never changes the base-name frequency table. -/
theorem claim_C4 (nodes : List (String × PyNode)) (id : String) (n : PyNode)
    (lv : LatestVersion) (ds : List PyStr) (hmem : (id, n) ∈ nodes)
    (hlv : n.latest_version = some lv) (hds : lv.dependencies = some ds)
    (hne : ds ≠ [])
    (hflags : ∀ d ∈ ds, (parse_dependency_string d).is_pip_command = true) :
    id ∈ (compile_dependencies nodes).nodes_without_dependencies ∧
      (∃ e ∈ (compile_dependencies nodes).nodes_with_pip_commands,
        e.id = id ∧ e.active_deps = []) ∧
      ∀ (la : LineAcc) (d : PyStr), (parse_dependency_string d).is_pip_command = true →
        (processLine la d).g.base_dependency_count = la.g.base_dependency_count := by
  have key : ∀ (rest : List (String × PyNode)) (acc : CompileAcc), (id, n) ∈ rest →
      id ∈ (rest.foldl processNode acc).nodes_without_deps ∧
        (⟨id, nodeName n,
            ds.map (fun d => (parse_dependency_string d).cleaned_str.getD []), []⟩ :
          NodePip) ∈ (rest.foldl processNode acc).nodes_with_pip := by
    intro rest
    induction rest with
    | nil => intro acc hm; exact absurd hm (List.not_mem_nil _)
    | cons en ns ih =>
      intro acc hm
      rw [List.foldl_cons]
      rcases List.mem_cons.mp hm with heq | htail
      · obtain ⟨h1, h2⟩ := processNode_allpip acc id n lv ds hlv hds hne hflags
        rw [← heq]
        exact ⟨foldNodes_without_mono ns _ id h1, foldNodes_pip_mono ns _ _ h2⟩
      · exact ih _ htail
  obtain ⟨h1, h2⟩ := key nodes emptyCompileAcc hmem
  refine ⟨h1, ⟨_, h2, rfl, rfl⟩, ?_⟩
  intro la d hd
  rw [processLine_pip la d hd]

/-- Witness for C4 (amended) at the concrete flags-only entity mapping. -/
theorem claim_C4_witness :
    ("n1", nodeFlagsOnly) ∈ cexFlags ∧
      (nodeFlagsOnly.latest_version =
        some ⟨none, some [pyOf "--extra-index-url https://example.com"]⟩) ∧
      ([pyOf "--extra-index-url https://example.com"] ≠ ([] : List PyStr)) ∧
      (∀ d ∈ [pyOf "--extra-index-url https://example.com"],
        (parse_dependency_string d).is_pip_command = true) ∧
      ("n1" ∈ (compile_dependencies cexFlags).nodes_without_dependencies ∧
        (∃ e ∈ (compile_dependencies cexFlags).nodes_with_pip_commands,
          e.id = "n1" ∧ e.active_deps = []) ∧
        ∀ (la : LineAcc) (d : PyStr), (parse_dependency_string d).is_pip_command = true →
          (processLine la d).g.base_dependency_count = la.g.base_dependency_count) := by
  refine ⟨by decide, rfl, by decide, by decide, ?_⟩
  exact claim_C4 cexFlags "n1" nodeFlagsOnly
    ⟨none, some [pyOf "--extra-index-url https://example.com"]⟩
    [pyOf "--extra-index-url https://example.com"]
    (by decide) rfl rfl (by decide) (by decide)

/-! Lemmas for the wildcard resolver (C7). -/

/-- Membership after one universe-collection step: a name is present iff it
was present before or the line is active (not skipped, not a pip command)
with that non-empty base name. -/
theorem wildInsertLine_mem (acc : List PyStr) (d : PyStr) (b : PyStr) :
    b ∈ wildInsertLine acc d ↔
      (b ∈ acc ∨ ((parse_dependency_string d).skip = false ∧
        (parse_dependency_string d).is_pip_command = false ∧
        (parse_dependency_string d).base_name = some b ∧ b ≠ [])) := by
  unfold wildInsertLine
  simp only []
  by_cases hsp :
    ((parse_dependency_string d).skip || (parse_dependency_string d).is_pip_command) = true
  · rw [if_pos hsp]
    constructor
    · exact Or.inl
    · rintro (h | ⟨hS, hP, -, -⟩)
      · exact h
      · rw [hS, hP] at hsp
        cases hsp
  · rw [if_neg hsp]
    have hS : (parse_dependency_string d).skip = false := by
      cases h1 : (parse_dependency_string d).skip
      · rfl
      · exact absurd (by rw [h1]; rfl) hsp
    have hP : (parse_dependency_string d).is_pip_command = false := by
      cases h1 : (parse_dependency_string d).is_pip_command
      · rfl
      · exact absurd (by rw [h1]; simp) hsp
    cases hb : (parse_dependency_string d).base_name with
    | none =>
      constructor
      · exact Or.inl
      · rintro (h | ⟨-, -, heq, -⟩)
        · exact h
        · cases heq
    | some bn =>
      simp only []
      by_cases hbe : bn.isEmpty = true
      · rw [if_pos hbe]
        have hbn : bn = [] := by
          cases bn
          · rfl
          · cases hbe
        constructor
        · exact Or.inl
        · rintro (h | ⟨-, -, heq, hne⟩)
          · exact h
          · rw [Option.some.injEq] at heq
            exact absurd (heq ▸ hbn) hne
      · rw [if_neg hbe]
        have hbn : bn ≠ [] := by
          intro hn
          rw [hn] at hbe
          exact hbe rfl
        by_cases hc : acc.contains bn = true
        · rw [if_pos hc]
          constructor
          · exact Or.inl
          · rintro (h | ⟨-, -, heq, -⟩)
            · exact h
            · rw [Option.some.injEq] at heq
              rw [← heq]
              exact (contains_mem acc bn).mp hc
        · rw [if_neg hc]
          rw [List.mem_append, List.mem_singleton]
          constructor
          · rintro (h | rfl)
            · exact Or.inl h
            · exact Or.inr ⟨hS, hP, rfl, hbn⟩
          · rintro (h | ⟨-, -, heq, -⟩)
            · exact Or.inl h
            · rw [Option.some.injEq] at heq
              exact Or.inr heq.symm

/-- Membership after folding the universe collection over a dependency
list. -/
theorem foldWild_mem (deps : List PyStr) :
    ∀ (acc : List PyStr) (b : PyStr),
      b ∈ deps.foldl wildInsertLine acc ↔
        (b ∈ acc ∨ ∃ d ∈ deps, (parse_dependency_string d).skip = false ∧
          (parse_dependency_string d).is_pip_command = false ∧
          (parse_dependency_string d).base_name = some b ∧ b ≠ []) := by
  induction deps with
  | nil =>
    intro acc b
    simp
  | cons d ds ih =>
    intro acc b
    rw [List.foldl_cons, ih, wildInsertLine_mem]
    constructor
    · rintro ((h | hP) | ⟨e, he, hPe⟩)
      · exact Or.inl h
      · exact Or.inr ⟨d, List.mem_cons_self d ds, hP⟩
      · exact Or.inr ⟨e, List.mem_cons_of_mem d he, hPe⟩
    · rintro (h | ⟨e, he, hPe⟩)
      · exact Or.inl (Or.inl h)
      · rcases List.mem_cons.mp he with heq | he'
        · exact Or.inl (Or.inr (heq ▸ hPe))
        · exact Or.inr ⟨e, he', hPe⟩

/-- Membership in the collected base-name universe of the wildcard
resolver. -/
theorem collectAllBaseDeps_mem (nodes : List (String × PyNode)) (b : PyStr) :
    b ∈ collectAllBaseDeps nodes ↔
      ∃ en ∈ nodes, ∃ d ∈ depsOfNode en.2,
        (parse_dependency_string d).skip = false ∧
          (parse_dependency_string d).is_pip_command = false ∧
          (parse_dependency_string d).base_name = some b ∧ b ≠ [] := by
  unfold collectAllBaseDeps
  have key : ∀ (ns : List (String × PyNode)) (acc : List PyStr),
      b ∈ ns.foldl (fun a en => (depsOfNode en.2).foldl wildInsertLine a) acc ↔
        (b ∈ acc ∨ ∃ en ∈ ns, ∃ d ∈ depsOfNode en.2,
          (parse_dependency_string d).skip = false ∧
            (parse_dependency_string d).is_pip_command = false ∧
            (parse_dependency_string d).base_name = some b ∧ b ≠ []) := by
    intro ns
    induction ns with
    | nil => intro acc; simp
    | cons en rest ih =>
      intro acc
      rw [List.foldl_cons, ih, foldWild_mem]
      constructor
      · rintro ((h | hP) | ⟨e, he, hPe⟩)
        · exact Or.inl h
        · exact Or.inr ⟨en, List.mem_cons_self en rest, hP⟩
        · exact Or.inr ⟨e, List.mem_cons_of_mem en he, hPe⟩
      · rintro (h | ⟨e, he, hPe⟩)
        · exact Or.inl (Or.inl h)
        · rcases List.mem_cons.mp he with heq | he'
          · exact Or.inl (Or.inr (heq ▸ hPe))
          · exact Or.inr ⟨e, he', hPe⟩
  rw [key nodes []]
  simp

/-- Counterexample to C7 as stated: the line `==1.0` is active (neither
comment, flag nor skipped) and its base name is the empty string, which
glob-matches the pattern `*`; the claim therefore requires a key for it, but
the resolver returns the empty map because the code's truthiness test
`if parsed['base_name']:` drops falsy (empty) base names from the universe. -/
theorem claim_C7_counterexample :
    (parse_dependency_string (pyOf "==1.0")).skip = false ∧
      (parse_dependency_string (pyOf "==1.0")).is_pip_command = false ∧
      (parse_dependency_string (pyOf "==1.0")).is_comment = false ∧
      (parse_dependency_string (pyOf "==1.0")).base_name = some [] ∧
      fnmatchB [] (pyLower (pyOf "*")) = true ∧
      analyze_wildcard_dependencies cexEmptyBase (pyOf "*") = [] := by
  exact ⟨rfl, rfl, rfl, rfl, rfl, rfl⟩

/-- Claim C7 (amended): the wildcard resolver's key set is exactly the set of
distinct non-empty base names of active dependency lines (flags, skipped
lines, comments and empty base names excluded) that fnmatch the lowercased
pattern; each key maps to the single-dependency inspector's report for it,
and a pattern matching nothing yields an empty map rather than an error. -/
theorem claim_C7 (nodes : List (String × PyNode)) (pattern : PyStr) :
    (∀ b, (∃ r, (b, r) ∈ analyze_wildcard_dependencies nodes pattern) ↔
        ((∃ en ∈ nodes, ∃ d ∈ depsOfNode en.2,
            (parse_dependency_string d).skip = false ∧
              (parse_dependency_string d).is_pip_command = false ∧
              (parse_dependency_string d).base_name = some b ∧ b ≠ []) ∧
          fnmatchB b (pyLower pattern) = true)) ∧
      (∀ b r, (b, r) ∈ analyze_wildcard_dependencies nodes pattern →
        r = analyze_specific_dependency nodes b) ∧
      ((¬∃ b, (∃ en ∈ nodes, ∃ d ∈ depsOfNode en.2,
            (parse_dependency_string d).skip = false ∧
              (parse_dependency_string d).is_pip_command = false ∧
              (parse_dependency_string d).base_name = some b ∧ b ≠ []) ∧
          fnmatchB b (pyLower pattern) = true) →
        analyze_wildcard_dependencies nodes pattern = []) := by
  refine ⟨?_, ?_, ?_⟩
  · intro b
    constructor
    · rintro ⟨r, hr⟩
      unfold analyze_wildcard_dependencies at hr
      obtain ⟨b', hb', heq⟩ := List.mem_map.mp hr
      rw [Prod.mk.injEq] at heq
      obtain ⟨rfl, -⟩ := heq
      obtain ⟨hu, hm⟩ := List.mem_filter.mp hb'
      exact ⟨(collectAllBaseDeps_mem nodes b').mp hu, hm⟩
    · rintro ⟨hx, hm⟩
      refine ⟨analyze_specific_dependency nodes b, ?_⟩
      unfold analyze_wildcard_dependencies
      refine List.mem_map.mpr ⟨b, ?_, rfl⟩
      exact List.mem_filter.mpr ⟨(collectAllBaseDeps_mem nodes b).mpr hx, hm⟩
  · intro b r hr
    unfold analyze_wildcard_dependencies at hr
    obtain ⟨b', hb', heq⟩ := List.mem_map.mp hr
    rw [Prod.mk.injEq] at heq
    obtain ⟨rfl, hr2⟩ := heq
    exact hr2.symm
  · intro hnone
    unfold analyze_wildcard_dependencies
    rw [List.map_eq_nil_iff]
    rw [List.filter_eq_nil_iff]
    intro b hb
    intro hm
    exact hnone ⟨b, (collectAllBaseDeps_mem nodes b).mp hb, hm⟩

/-- Witness for C7 (amended) on a concrete entity mapping and the pattern
`torch*`. -/
theorem claim_C7_witness :
    ∃ r, (pyOf "torch", r) ∈ analyze_wildcard_dependencies cexWild (pyOf "torch*") :=
  ((claim_C7 cexWild (pyOf "torch*")).1 (pyOf "torch")).mpr (by decide)

/-! Lemmas for URL normalization (C8). -/

/-- Occurrence characterisation of the substring test. -/
theorem containsSub_exists (p : PyStr) :
    ∀ s : PyStr, containsSub p s = true ↔ ∃ a b, s = a ++ p ++ b := by
  intro s
  induction s with
  | nil =>
    simp only [containsSub, List.isEmpty_iff]
    constructor
    · rintro rfl
      exact ⟨[], [], rfl⟩
    · rintro ⟨a, b, hab⟩
      rcases List.append_eq_nil.mp hab.symm with ⟨h1, h2⟩
      exact (List.append_eq_nil.mp h1).2
  | cons c t ih =>
    simp only [containsSub, Bool.or_eq_true]
    constructor
    · rintro (hpre | hrec)
      · obtain ⟨u, hu⟩ := (isPrefixOf_exists p (c :: t)).mp hpre
        exact ⟨[], u, by simpa using hu⟩
      · obtain ⟨a, b, hab⟩ := ih.mp hrec
        exact ⟨c :: a, b, by simp [hab]⟩
    · rintro ⟨a, b, hab⟩
      cases a with
      | nil =>
        refine Or.inl ((isPrefixOf_exists p (c :: t)).mpr ⟨b, ?_⟩)
        simpa using hab
      | cons a0 a' =>
        refine Or.inr (ih.mpr ⟨a', b, ?_⟩)
        have := hab
        simp only [List.cons_append, List.cons.injEq] at this
        exact this.2

/-- A substring of the right part of a concatenation is a substring. -/
theorem containsSub_weakenR (q p : PyStr) (s : PyStr)
    (h : containsSub (q ++ p) s = true) : containsSub p s = true := by
  obtain ⟨a, b, hab⟩ := (containsSub_exists (q ++ p) s).mp h
  refine (containsSub_exists p s).mpr ⟨a ++ q, b, ?_⟩
  rw [hab]
  simp

/-- Skipping an already-matched occurrence. -/
theorem pyRemoveAllAux_skip (pat : PyStr) :
    ∀ (l s : PyStr), pyRemoveAllAux pat l.length (l ++ s) = pyRemoveAllAux pat 0 s := by
  intro l
  induction l with
  | nil => intro s; rfl
  | cons c t ih =>
    intro s
    show pyRemoveAllAux pat (Nat.succ t.length) (c :: (t ++ s)) = pyRemoveAllAux pat 0 s
    rw [show pyRemoveAllAux pat (Nat.succ t.length) (c :: (t ++ s)) =
        pyRemoveAllAux pat t.length (t ++ s) from rfl]
    exact ih s

/-- `str.replace(pat, '')` is the identity when `pat` does not occur. -/
theorem pyRemoveAll_of_not_contains (pat : PyStr) :
    ∀ s : PyStr, containsSub pat s = false → pyRemoveAll pat s = s := by
  intro s
  induction s with
  | nil => intro _; rfl
  | cons c t ih =>
    intro h
    have hsplit : pat.isPrefixOf (c :: t) = false ∧ containsSub pat t = false := by
      have := h
      unfold containsSub at this
      constructor
      · cases hp : pat.isPrefixOf (c :: t)
        · rfl
        · rw [hp] at this
          cases this
      · cases hc : containsSub pat t
        · rfl
        · rw [hc] at this
          simp at this
    show pyRemoveAllAux pat 0 (c :: t) = c :: t
    unfold pyRemoveAllAux
    rw [if_neg (by simp [hsplit.1])]
    rw [show pyRemoveAllAux pat 0 t = pyRemoveAll pat t from rfl, ih hsplit.2]

/-- Unfolding equation of the removal worker at skip counter zero. -/
theorem pyRemoveAllAux_zero_cons (pat : PyStr) (c : Char) (t : PyStr) :
    pyRemoveAllAux pat 0 (c :: t) =
      if (decide (pat ≠ []) && pat.isPrefixOf (c :: t)) = true then
        pyRemoveAllAux pat (pat.length - 1) t
      else c :: pyRemoveAllAux pat 0 t := rfl

/-- `str.replace(pat, '')` removes a leading occurrence of `pat`. -/
theorem pyRemoveAll_leading (pat : PyStr) (s : PyStr) (h : pat ≠ []) :
    pyRemoveAll pat (pat ++ s) = pyRemoveAll pat s := by
  cases pat with
  | nil => exact absurd rfl h
  | cons c p' =>
    show pyRemoveAllAux (c :: p') 0 (c :: (p' ++ s)) = pyRemoveAllAux (c :: p') 0 s
    rw [pyRemoveAllAux_zero_cons]
    rw [if_pos (by
      refine (Bool.and_eq_true _ _).mpr ⟨by simp, ?_⟩
      exact (isPrefixOf_exists (c :: p') (c :: (p' ++ s))).mpr ⟨s, by simp⟩)]
    rw [show (c :: p').length - 1 = p'.length from rfl]
    exact pyRemoveAllAux_skip (c :: p') p' s

/-- `strip('/')` is the identity when neither end is a slash. -/
theorem stripSlashes_id (s : PyStr) (h1 : s.head? ≠ some '/')
    (h2 : s.getLast? ≠ some '/') : stripSlashes s = s := by
  unfold stripSlashes
  have hd : s.dropWhile (fun c => c == '/') = s := by
    cases s with
    | nil => rfl
    | cons c t =>
      rw [List.dropWhile_cons_of_neg]
      intro hc
      rw [beq_iff_eq] at hc
      exact h1 (by rw [hc]; rfl)
  rw [hd]
  cases hr : s.reverse with
  | nil => simp [List.reverse_eq_nil_iff.mp hr]
  | cons c t =>
    have hc : c ≠ '/' := by
      intro hcc
      have : s.getLast? = some c := by
        rw [← List.head?_reverse, hr]
        rfl
      exact h2 (by rw [this, hcc])
    rw [List.dropWhile_cons_of_neg (by simp [hc])]
    rw [← hr]
    simp

/-- Counterexample to C8 as stated: `.git` in the interior of a URL path is
removed too (every occurrence of `.git` is deleted, not only a suffix), so
`github.com/user/my.github.io` normalizes to `user/myhub.io` rather than to
the claimed `user/my.github.io`. -/
theorem claim_C8_counterexample :
    normalize_repository_url (pyOf "github.com/user/my.github.io") = pyOf "user/myhub.io" ∧
      normalize_repository_url (pyOf "github.com/user/my.github.io") ≠
        pyOf "user/my.github.io" := by
  exact ⟨rfl, by decide⟩

/-- Claim C8 (amended): the normalization lowercases the URL, strips leading
and trailing slashes, removes the github host/protocol prefixes, and removes
EVERY occurrence of `.git` (not only a trailing one). On a well-formed
`https://github.com/` URL whose path is already lowercase, slash-free at the
ends, and free of `github.com/` and `.git` substrings, it returns exactly
that path; a trailing `.git` suffix is dropped, and an interior `.git` is
removed as well. -/
theorem claim_C8 (rest : PyStr) (h0 : rest ≠ []) (hlow : pyLower rest = rest)
    (hng : containsSub (pyOf "github.com/") rest = false)
    (hnd : containsSub (pyOf ".git") rest = false)
    (hl : rest.getLast? ≠ some '/') :
    normalize_repository_url (pyOf "https://github.com/" ++ rest) = rest ∧
      normalize_repository_url (pyOf "https://github.com/owner/repo.git") =
        pyOf "owner/repo" ∧
      normalize_repository_url (pyOf "github.com/user/my.github.io") =
        pyOf "user/myhub.io" := by
  refine ⟨?_, rfl, rfl⟩
  have hn1 : containsSub (pyOf "https://github.com/") rest = false := by
    cases hc : containsSub (pyOf "https://github.com/") rest
    · rfl
    · exfalso
      have := containsSub_weakenR (pyOf "https://") (pyOf "github.com/") rest
        (by rw [show pyOf "https://" ++ pyOf "github.com/" = pyOf "https://github.com/"
          from rfl]; exact hc)
      rw [this] at hng
      cases hng
  have hn2 : containsSub (pyOf "http://github.com/") rest = false := by
    cases hc : containsSub (pyOf "http://github.com/") rest
    · rfl
    · exfalso
      have := containsSub_weakenR (pyOf "http://") (pyOf "github.com/") rest
        (by rw [show pyOf "http://" ++ pyOf "github.com/" = pyOf "http://github.com/"
          from rfl]; exact hc)
      rw [this] at hng
      cases hng
  unfold normalize_repository_url
  have hcond : ((pyOf "https://github.com/" ++ rest).isEmpty ||
      ((pyOf "https://github.com/" ++ rest) == pyOf "N/A")) = false := rfl
  rw [if_neg (bool_ne_true _ hcond)]
  have hlow2 : pyLower (pyOf "https://github.com/" ++ rest) = pyOf "https://github.com/" ++ rest := by
    unfold pyLower
    rw [List.map_append]
    rw [show List.map Char.toLower (pyOf "https://github.com/") = pyOf "https://github.com/"
      from rfl]
    rw [show List.map Char.toLower rest = pyLower rest from rfl, hlow]
  rw [hlow2]
  have hhead : (pyOf "https://github.com/" ++ rest).head? ≠ some '/' := by
    rw [show (pyOf "https://github.com/" ++ rest).head? = some 'h' from rfl]
    decide
  have hlast : (pyOf "https://github.com/" ++ rest).getLast? ≠ some '/' := by
    rw [List.getLast?_append]
    cases hrl : rest.getLast? with
    | none => exact absurd (List.getLast?_eq_none_iff.mp hrl) h0
    | some x =>
      rw [hrl] at hl
      simpa using hl
  have hstrip := stripSlashes_id (pyOf "https://github.com/" ++ rest) hhead hlast
  rw [hstrip]
  rw [pyRemoveAll_leading (pyOf "https://github.com/") rest (by intro hx; cases hx)]
  rw [pyRemoveAll_of_not_contains _ rest hn1]
  rw [pyRemoveAll_of_not_contains _ rest hn2]
  rw [pyRemoveAll_of_not_contains _ rest hng]
  rw [pyRemoveAll_of_not_contains _ rest hnd]

/-- Witness for C8 (amended) at the concrete path `owner/repo`. -/
theorem claim_C8_witness :
    (pyOf "owner/repo" ≠ []) ∧
      (normalize_repository_url (pyOf "https://github.com/" ++ pyOf "owner/repo") =
        pyOf "owner/repo") := by
  refine ⟨by decide, ?_⟩
  exact (claim_C8 (pyOf "owner/repo") (by decide) (by decide) (by decide) (by decide)
    (by decide)).1

end ComfyDeps
